import Mathlib

/-!
# Quiz text parser of the chat widget (`static/script.js`)

A shallow embedding of `tryParseQuiz`, `renderQuizCards`, `escapeHTML`,
`appendMessage` and the send path of the chat widget from
`B-assistant-to-the-outline-of-modern-chinese-history-main/static/script.js`,
followed by theorems about them.

A JavaScript string is modelled as the list of its characters.  (JavaScript
counts in UTF-16 code units; a character outside the basic plane is two units
there, both matched by `.` and by none of the classes used here, so the
matchers agree on every well-formed string.)  Every regular expression of the
source is translated into a matcher on such lists; the classes `\s`, `\d` and
`.` are the ECMAScript ones (no `u`, `m` or `s` flag is used in the source, so
`^` and `$` are the ends of the input and `.` excludes the four line
terminators).
-/

namespace QuizParser

/-- A JavaScript string. -/
abbrev Str := List Char

/-! ## Character classes -/

/-- The class `\s` of ECMAScript (WhiteSpace and LineTerminator); `trim` strips
the same set. -/
def isWhiteSpace (c : Char) : Bool :=
  let n := c.toNat
  n == 9 || n == 10 || n == 11 || n == 12 || n == 13 || n == 32 || n == 160 ||
  n == 5760 || (8192 ≤ n && n ≤ 8202) || n == 8232 || n == 8233 || n == 8239 ||
  n == 8287 || n == 12288 || n == 65279

/-- The characters that `.` does not match: LF, CR, LS, PS. -/
def isLineTerminator (c : Char) : Bool :=
  let n := c.toNat
  n == 10 || n == 13 || n == 8232 || n == 8233

/-- The class `\d`. -/
def isDigit (c : Char) : Bool :=
  48 ≤ c.toNat && c.toNat ≤ 57

/-- The class `[:：]`. -/
def isColon (c : Char) : Bool :=
  c == ':' || c == '：'

/-- The class `[A-DＡ-Ｄ]`. -/
def isOptionLetter (c : Char) : Bool :=
  (65 ≤ c.toNat && c.toNat ≤ 68) || (65313 ≤ c.toNat && c.toNat ≤ 65316)

/-- The class `[Ａ-Ｄ]`. -/
def isFullWidthLetter (c : Char) : Bool :=
  65313 ≤ c.toNat && c.toNat ≤ 65316

/-- The class `[\.．、]`. -/
def isOptionSep (c : Char) : Bool :=
  c == '.' || c == '．' || c == '、'

/-! ## Regular-expression building blocks -/

/-- Match a literal at the start of the input and return what follows it. -/
def eatLit : Str → Str → Option Str
  | [], s => some s
  | _ :: _, [] => none
  | p :: ps, c :: cs => if p = c then eatLit ps cs else none

/-- Greedy `\s*`: what is left after the longest run of white space. -/
def skipWS (s : Str) : Str :=
  s.dropWhile isWhiteSpace

/-- The tail `\s*(.*)$` of the field patterns: the capture group.  After the
greedy `\s*` the rest must be free of line terminators up to the end of the
input; giving white space back to `.*` cannot help, since the rest only grows. -/
def captureRest (s : Str) : Option Str :=
  if (skipWS s).any isLineTerminator then none else some (skipWS s)

/-- The part `\s*[:：]` of the field patterns: what follows the colon. -/
def afterColon (s : Str) : Option Str :=
  match skipWS s with
  | c :: r => if isColon c then some r else none
  | [] => none

/-- The part `\s*\d` (the start of `\s*\d+`): is there a digit after the white
space. -/
def digitAhead (s : Str) : Bool :=
  match skipWS s with
  | c :: _ => isDigit c
  | [] => false

/-- A pattern `^(?:a₁|…|aₙ)\s*[:：]\s*(.*)$`: alternatives are tried in order,
the result is the capture group of the first one that lets the whole pattern
match. -/
def matchLabelled (alts : List Str) (line : Str) : Option Str :=
  alts.findSome? fun a => (eatLit a line).bind fun r => (afterColon r).bind captureRest

/-! ## The patterns of `tryParseQuiz` -/

/-- The words of `题目\s*\d+|选择题\s*\d+|判断题\s*\d+|简答题\s*\d+`. -/
def numberedWords : List Str :=
  ["题目".toList, "选择题".toList, "判断题".toList, "简答题".toList]

/-- The words of `题干\s*[:：]|正确答案\s*[:：]|参考答案\s*[:：]|解析\s*[:：]`. -/
def labelWords : List Str :=
  ["题干".toList, "正确答案".toList, "参考答案".toList, "解析".toList]

/-- Does `indicatorRegex` match at the very start of `s`. -/
def indicatorAt (s : Str) : Bool :=
  numberedWords.any (fun w => match eatLit w s with
    | some r => digitAhead r
    | none => false) ||
  labelWords.any (fun w => match eatLit w s with
    | some r => (afterColon r).isSome
    | none => false)

/-- The test `indicatorRegex.test(text)`: the pattern is not anchored, so every
start position is tried. -/
def indicatorTest : Str → Bool
  | [] => indicatorAt []
  | c :: cs => indicatorAt (c :: cs) || indicatorTest cs

/-- The test `titleRegex.test(line)` for
`/^(?:题目|选择题|判断题|简答题)\s*\d+\s*[:：]?/`; after the first digit the
rest of the pattern always matches. -/
def titleTest (line : Str) : Bool :=
  numberedWords.any fun w => match eatLit w line with
    | some r => digitAhead r
    | none => false

/-- The match `line.match(stemRegex)` for `/^题干\s*[:：]\s*(.*)$/`: the group. -/
def stemMatch (line : Str) : Option Str :=
  matchLabelled ["题干".toList] line

/-- The match `line.match(optionRegex)` for `/^[A-DＡ-Ｄ]\s*[\.．、]\s*(.*)$/`. -/
def optionMatch (line : Str) : Option Str :=
  match line with
  | c :: r =>
    if isOptionLetter c then
      match skipWS r with
      | d :: r2 => if isOptionSep d then captureRest r2 else none
      | [] => none
    else none
  | [] => none

/-- The match `line.match(answerRegex)` for
`/^(?:正确?答案|参考答案)\s*[:：]\s*(.*)$/`.  The quantifier `?` binds the single
character `确`, so the first alternative stands for the two words `正确答案`
(tried first, `?` being greedy) and `正答案`. -/
def answerMatch (line : Str) : Option Str :=
  matchLabelled ["正确答案".toList, "正答案".toList, "参考答案".toList] line

/-- The match `line.match(explainRegex)` for
`/^(?:解析|答案解析|解答|讲解)\s*[:：]\s*(.*)$/`. -/
def explainMatch (line : Str) : Option Str :=
  matchLabelled ["解析".toList, "答案解析".toList, "解答".toList, "讲解".toList] line

/-! ## Line splitting -/

/-- Put a character in front of the first piece. -/
def pushFront (c : Char) : List Str → List Str
  | [] => [[c]]
  | p :: ps => (c :: p) :: ps

/-- The call `text.split(/\r?\n/)`. -/
def splitLines : Str → List Str
  | [] => [[]]
  | [c] => if c = '\n' then [[], []] else [[c]]
  | c :: d :: rest =>
    if c = '\n' then [] :: splitLines (d :: rest)
    else if c = '\r' ∧ d = '\n' then [] :: splitLines rest
    else pushFront c (splitLines (d :: rest))

/-- The method `String.prototype.trim`. -/
def trim (s : Str) : Str :=
  ((s.dropWhile isWhiteSpace).reverse.dropWhile isWhiteSpace).reverse

/-- The lines of a text:
`text.split(/\r?\n/).map(l => l.trim()).filter(l => l.length > 0)`. -/
def lines (text : Str) : List Str :=
  ((splitLines text).map trim).filter fun l => decide (l.length > 0)

/-! ## Segmentation -/

/-- The loop of line 159: the indices, counted from `i`, of the lines that
match the title pattern. -/
def titleIndicesFrom : Nat → List Str → List Nat
  | _, [] => []
  | i, l :: ls =>
    if titleTest l then i :: titleIndicesFrom (i + 1) ls else titleIndicesFrom (i + 1) ls

/-- The array `indices` after lines 158–161: the title indices, or `0` when
there is none, then the sentinel `lines.length`. -/
def indices (ls : List Str) : List Nat :=
  (if titleIndicesFrom 0 ls = [] then [0] else titleIndicesFrom 0 ls) ++ [ls.length]

/-- The call `lines.slice(start, end)` for `0 ≤ start` and `0 ≤ end`. -/
def slice (ls : List Str) (start stop : Nat) : List Str :=
  (ls.drop start).take (stop - start)

/-- The pairs `(indices[k], indices[k + 1])` for `k = 0, …, indices.length - 2`
(lines 163–165), in order. -/
def ranges (ls : List Str) : List (Nat × Nat) :=
  (indices ls).zip (indices ls).tail

/-- The chunks `lines.slice(start, end)` of line 166, in order. -/
def chunks (ls : List Str) : List (List Str) :=
  (ranges ls).map fun p => slice ls p.1 p.2

/-! ## Field extraction -/

/-- A parsed question: `{ title, stem, options, answer, explanation }`. -/
structure Question where
  title : Str
  stem : Str
  options : List Str
  answer : Str
  explanation : Str
  deriving DecidableEq, Repr

/-- The replacement `s.replace(/\s+/g, '')`. -/
def removeWS (s : Str) : Str :=
  s.filter fun c => !isWhiteSpace c

/-- The value of `prefix` (line 184): the leading letter, a full-width one moved
down by 65248 code points. -/
def optionLetter (line : Str) : Str :=
  match line with
  | c :: _ =>
    if isOptionLetter c then
      (if isFullWidthLetter c then [Char.ofNat (c.toNat - 65248)] else [c])
    else []
  | [] => []

/-- The value of `text` (line 185):
`line.replace(/^[A-DＡ-Ｄ]\s*[\.．、]\s*/, '')`. -/
def optionText (line : Str) : Str :=
  match line with
  | c :: r =>
    if isOptionLetter c then
      match skipWS r with
      | d :: r2 => if isOptionSep d then skipWS r2 else line
      | [] => line
    else line
  | [] => line

/-- The pushed option: the template literal of line 186, the letter, a dot, a
space, the text. -/
def formatOption (line : Str) : Str :=
  optionLetter line ++ ". ".toList ++ optionText line

/-- The break test of line 194. -/
def isMarker (l : Str) : Bool :=
  (stemMatch l).isSome || (optionMatch l).isSome || (answerMatch l).isSome || titleTest l

/-- The call `parts.join('\n')`. -/
def joinLines (parts : List Str) : Str :=
  List.intercalate ['\n'] parts

/-- The loop of lines 177–200 over the lines of a chunk.  The flag says
whether the line at hand is `chunk[0]`; the counter is the number of lines
that the inner loop has already absorbed into the explanation (`i = j`), which
the outer loop steps over. -/
def scanLines : Bool → Nat → List Str → Question → Question
  | _, _, [], q => q
  | _, skip + 1, _ :: rest, q => scanLines false skip rest q
  | first, 0, line :: rest, q =>
    if first && titleTest line then scanLines false 0 rest q
    else match stemMatch line with
      | some m => scanLines false 0 rest { q with stem := m }
      | none =>
        match optionMatch line with
        | some _ =>
          scanLines false 0 rest { q with options := q.options ++ [formatOption line] }
        | none =>
          match answerMatch line with
          | some m => scanLines false 0 rest { q with answer := m }
          | none =>
            match explainMatch line with
            | some m =>
              scanLines false (rest.takeWhile fun l => !isMarker l).length rest
                { q with explanation := joinLines (m :: rest.takeWhile fun l => !isMarker l) }
            | none => scanLines false 0 rest q

/-- The fallback of line 201: the first line of `chunk.slice(1)` that matches
none of the option, answer and explanation patterns, or the empty string. -/
def stemFallback (chunk : List Str) : Str :=
  (chunk.tail.find? fun l =>
    !(optionMatch l).isSome && !(answerMatch l).isSome && !(explainMatch l).isSome).getD []

/-- The body of the loop of lines 163–203 for one chunk: nothing for an empty
chunk (`continue`), else the question pushed at line 202. -/
def extractFields (chunk : List Str) : Option Question :=
  match chunk with
  | [] => none
  | l0 :: _ =>
    let q := scanLines true 0 chunk
      { title := removeWS l0, stem := [], options := [], answer := [], explanation := [] }
    some (if q.stem = [] then { q with stem := stemFallback chunk } else q)

/-- The function `tryParseQuiz`: `none` is `null`. -/
def tryParseQuiz (text : Str) : Option (List Question) :=
  if !indicatorTest text then none
  else if (lines text).length = 0 then none
  else some ((chunks (lines text)).filterMap extractFields)

/-! ## The function `appendMessage` -/

/-- The fence of three backticks. -/
def fence : Str := "```".toList

/-- One letter of a pattern under the flag `i`: without the flag `u` a
pattern letter `a`–`z` matches itself and its upper-case form and nothing
else (a character above 127 is never folded onto one below 128). -/
def sameLetter (p c : Char) : Bool :=
  c.toNat == p.toNat || c.toNat + 32 == p.toNat

/-- Match a lower-case word at the start of the input whatever the case of
its letters, and return what follows it. -/
def eatWord : Str → Str → Option Str
  | [], s => some s
  | _ :: _, [] => none
  | p :: ps, c :: cs => if sameLetter p c then eatWord ps cs else none

/-- The part `([\s\S]*?)` followed by the closing fence: the lazy star stops
at the first fence; the result is the group and what follows the fence. -/
def splitAtFence : Str → Option (Str × Str)
  | [] => none
  | c :: cs =>
    match eatLit fence (c :: cs) with
    | some rest => some ([], rest)
    | none => (splitAtFence cs).map fun r => (c :: r.1, r.2)

/-- The pattern `mermaidBlockRegex` at the very start of the input: the
group and what follows the match. -/
def mermaidAt (s : Str) : Option (Str × Str) :=
  (eatLit fence s).bind fun r1 => (eatWord "mermaid".toList r1).bind splitAtFence

/-- The call `content.match(mermaidBlockRegex)` (line 104): the leftmost
match, given as what stands in front of it, the group `match[1]` and what
follows it; `none` is `null`. -/
def findMermaid : Str → Option (Str × Str × Str)
  | [] => none
  | c :: cs =>
    match mermaidAt (c :: cs) with
    | some r => some ([], r.1, r.2)
    | none => (findMermaid cs).map fun r => (c :: r.1, r.2.1, r.2.2)

/-- The argument `type` of `appendMessage`: the callers pass `user` or `bot`. -/
inductive MessageType where
  | user
  | bot
  deriving DecidableEq, Repr

/-- What `appendMessage` puts into the bubble behind the image: the mermaid
graph with its source and the summary (rendered when non-empty), the quiz
cards, `marked.parse(content)`, the plain text of a user message, or
nothing. -/
inductive Rendering where
  | mermaid (source : Str) (summary : Str)
  | cards (questions : List Question)
  | markdown (content : Str)
  | text (content : Str)
  | nothing
  deriving DecidableEq, Repr

/-- The bubble that `appendMessage` appends. -/
structure Bubble where
  image : Option Str
  body : Rendering
  deriving DecidableEq, Repr

/-- The function `appendMessage` (lines 86–150).  A bot message with a mermaid
block takes the mermaid branch (lines 106–130): the source is `match[1]`
trimmed, the summary the content without the match, trimmed.  Any other bot
message goes through `tryParseQuiz` (lines 131–138).  A user message shows its
image and its text. -/
def appendMessage (content : Str) (type : MessageType) (imageData : Option Str) : Bubble :=
  { image := if type = MessageType.user then imageData else none,
    body :=
      match type with
      | MessageType.bot =>
        match findMermaid content with
        | some m => Rendering.mermaid (trim m.2.1) (trim (m.1 ++ m.2.2))
        | none =>
          match tryParseQuiz content with
          | some qs =>
            if qs.length > 0 then Rendering.cards qs else Rendering.markdown content
          | none => Rendering.markdown content
      | MessageType.user => if content = [] then Rendering.nothing else Rendering.text content }

/-! ## Words of the specification -/

/-- The text contains a substring matching a quiz indicator: one of the
numbered words, optional white space and a digit, or one of the label words,
optional white space and a colon. -/
def HasIndicator (text : Str) : Prop :=
  ∃ pre w ws c rest, text = pre ++ (w ++ (ws ++ c :: rest)) ∧
    (∀ x ∈ ws, isWhiteSpace x = true) ∧
    ((w ∈ numberedWords ∧ isDigit c = true) ∨ (w ∈ labelWords ∧ isColon c = true))

/-- Line 213 of `renderQuizCards`: the header text of card number `idx`,
the title or, for an empty title, `题目` and the card number. -/
def headerText (q : Question) (idx : Nat) : Str :=
  if q.title = [] then "题目".toList ++ (Nat.repr (idx + 1)).toList else q.title

/-- The half-width letter of an option letter: `Ａ`, `Ｂ`, `Ｃ`, `Ｄ` become
`A`, `B`, `C`, `D`, a half-width letter stays. -/
def halfWidth (c : Char) : Char :=
  if c = 'Ａ' then 'A' else if c = 'Ｂ' then 'B' else if c = 'Ｃ' then 'C'
  else if c = 'Ｄ' then 'D' else c

/-- The stem that the specification promises for a range without a `题干`
line: the first line, a leading title line apart, that matches none of the
option, answer and explanation patterns, the empty string if there is none.
In a range without title line the first line is a candidate. -/
def claimedStem (chunk : List Str) : Str :=
  ((match chunk with
    | l0 :: rest => if titleTest l0 then rest else l0 :: rest
    | [] => []).find? fun l =>
    !(optionMatch l).isSome && !(answerMatch l).isSome && !(explainMatch l).isSome).getD []

/-- A field text of a well-formed block: non-empty, trimmed and without line
break (none of the four line terminators LF, CR, LS, PS). -/
def Clean (s : Str) : Prop :=
  s ≠ [] ∧ trim s = s ∧ ∀ c ∈ s, isLineTerminator c = false

instance (s : Str) : Decidable (Clean s) := by
  unfold Clean
  exact inferInstance

/-- An option line of a well-formed block: the letter, the separator, the
text. -/
def optionLine (o : Char × Char × Str) : Str :=
  o.1 :: o.2.1 :: o.2.2

/-- The option expected for an option line of a well-formed block: the
half-width letter, a dot, a blank, the text. -/
def expectedOption (o : Char × Char × Str) : Str :=
  halfWidth o.1 :: '.' :: ' ' :: o.2.2

/-- A well-formed block: the title line, the stem line, the option lines, the
answer line and the explanation line, separated by line feeds. -/
def wellFormedBlock (T s : Str) (opts : List (Char × Char × Str)) (a e : Str) : Str :=
  joinLines (T :: ("题干：".toList ++ s) ::
    (opts.map optionLine ++ ["正确答案：".toList ++ a, "解析：".toList ++ e]))

/-- A segment in front of a line feed without a carriage return at its end,
which `\r?\n` takes into the separator. -/
def dropCR : Str → Str
  | [] => []
  | [c] => if c = '\r' then [] else [c]
  | c :: d :: r => c :: dropCR (d :: r)

/-- The call `s.replace(/c/g, rep)` for a pattern that is the one character
`c`: every occurrence is replaced, left to right. -/
def replaceAll (c : Char) (rep : Str) (s : Str) : Str :=
  s.flatMap fun x => if x = c then rep else [x]

/-- The function `escapeHTML`; for a string argument `String(str)` is `str`.
The characters 34 and 39 are the double quote and the apostrophe. -/
def escapeHTML (str : Str) : Str :=
  replaceAll (Char.ofNat 39) "&#039;".toList
    (replaceAll (Char.ofNat 34) "&quot;".toList
      (replaceAll '>' "&gt;".toList
        (replaceAll '<' "&lt;".toList
          (replaceAll '&' "&amp;".toList str))))

/-- The rewriting of one character that the specification describes. -/
def escapeChar (c : Char) : Str :=
  if c = '&' then "&amp;".toList
  else if c = '<' then "&lt;".toList
  else if c = '>' then "&gt;".toList
  else if c = Char.ofNat 34 then "&quot;".toList
  else if c = Char.ofNat 39 then "&#039;".toList
  else [c]

/-- The five entities. -/
def entities : List Str :=
  ["&amp;".toList, "&lt;".toList, "&gt;".toList, "&quot;".toList, "&#039;".toList]

/-! ## The index-level scan loop -/

/-- The inner loop of lines 192–196 from index `j` on, over the lines
`chunk[j], chunk[j + 1], …`: it returns `parts` and the value of the outer
index `i` when the loop is left (`i = j` after every absorbed line). -/
def absorbLoop : List Str → Nat → Nat → List Str → List Str × Nat
  | [], _, i, parts => (parts, i)
  | nxt :: rest, j, i, parts =>
    if isMarker nxt then (parts, i) else absorbLoop rest (j + 1) j (parts ++ [nxt])

/-- The loop of lines 177–200 with its index `i`, under a bound on the number
of iterations: `none` when the bound is used up before `i` reaches
`chunk.length`.  Every `continue` is followed by the `i++` of the loop head. -/
def scanLoop (chunk : List Str) : Nat → Nat → Question → Option Question
  | 0, i, q => if i < chunk.length then none else some q
  | fuel + 1, i, q =>
    match chunk[i]? with
    | none => some q
    | some line =>
      if i = 0 ∧ titleTest line = true then scanLoop chunk fuel (i + 1) q
      else match stemMatch line with
        | some m => scanLoop chunk fuel (i + 1) { q with stem := m }
        | none =>
          match optionMatch line with
          | some _ =>
            scanLoop chunk fuel (i + 1) { q with options := q.options ++ [formatOption line] }
          | none =>
            match answerMatch line with
            | some m => scanLoop chunk fuel (i + 1) { q with answer := m }
            | none =>
              match explainMatch line with
              | some m =>
                scanLoop chunk fuel ((absorbLoop (chunk.drop (i + 1)) (i + 1) i [m]).2 + 1)
                  { q with explanation :=
                      joinLines (absorbLoop (chunk.drop (i + 1)) (i + 1) i [m]).1 }
              | none => scanLoop chunk fuel (i + 1) q

/-! ## The cards of `renderQuizCards` -/

/-- The label `显示解析` of the toggle button. -/
def showLabel : Str := "显示解析".toList

/-- The label `隐藏解析` of the toggle button. -/
def hideLabel : Str := "隐藏解析".toList

/-- The class token `hidden`. -/
def hiddenClass : Str := "hidden".toList

/-- The button and the detail region of a card: `toggleBtn.textContent`, the
tokens of `detail.classList`, and the escaped values put into the detail
region (lines 227–228; the line feeds of the explanation become `<br>`). -/
structure Toggle where
  label : Str
  detailClasses : List Str
  answerValue : Option Str
  explainValue : Option Str
  deriving DecidableEq, Repr

/-- A card built by `renderQuizCards`: header, stem (if any), option items and,
when there is an answer or an explanation, the button with its detail
region. -/
structure Card where
  header : Str
  stem : Option Str
  options : List Str
  toggle : Option Toggle
  deriving DecidableEq, Repr

/-- The test `q.answer && q.answer.trim().length > 0` and its like (lines
220–221). -/
def hasText (s : Str) : Bool :=
  decide ((trim s).length > 0)

/-- The body of the `forEach` of `renderQuizCards` for the question `q` at
index `idx` (lines 211–236). -/
def renderCard (q : Question) (idx : Nat) : Card :=
  { header := headerText q idx,
    stem := if q.stem = [] then none else some q.stem,
    options := q.options,
    toggle :=
      if hasText q.answer || hasText q.explanation then
        some { label := showLabel,
               detailClasses := ["quiz-detail".toList, hiddenClass],
               answerValue := if hasText q.answer then some (escapeHTML q.answer) else none,
               explainValue :=
                 if hasText q.explanation then
                   some (replaceAll '\n' "<br>".toList (escapeHTML q.explanation))
                 else none }
      else none }

/-- The function `renderQuizCards`: one card per question, in order. -/
def renderQuizCards (questions : List Question) : List Card :=
  questions.enum.map fun p => renderCard p.2 p.1

/-- The test `detail.classList.contains('hidden')`: the detail region is
hidden. -/
def isHidden (t : Toggle) : Bool :=
  t.detailClasses.contains hiddenClass

/-- The click listener of the toggle button (lines 230–234):
`classList.toggle('hidden')` removes the token when it is there and adds it
otherwise; the label is set from the state before the toggle. -/
def clickToggle (t : Toggle) : Toggle :=
  { t with
    detailClasses :=
      if isHidden t then t.detailClasses.filter (fun c => c != hiddenClass)
      else t.detailClasses ++ [hiddenClass],
    label := if isHidden t then hideLabel else showLabel }

/-- The toggle after `n` clicks. -/
def afterClicks (n : Nat) (t : Toggle) : Toggle :=
  Nat.iterate clickToggle n t

/-- A string that is empty or holds a character other than white space. -/
def Solid (s : Str) : Prop :=
  s = [] ∨ ∃ c ∈ s, isWhiteSpace c = false

/-! ## The chat widget -/

/-- The state of the chat widget that `sendMessage` reads and writes:
`userInput.value`, `selectedImageData`, `sendBtn.disabled`, and the number of
requests to the chat endpoint that are awaited. -/
structure Widget where
  inputValue : Str
  selectedImage : Option Str
  sendDisabled : Bool
  inFlight : Nat
  deriving DecidableEq, Repr

/-- The events of the widget: the user edits the input box, an image has been
read, a click on the send button, an Enter keypress (without Shift) in the
input box, and the settling of a pending request (response or failure). -/
inductive Event where
  | typeText (value : Str)
  | imageLoaded (data : Str)
  | clickSend
  | pressEnter
  | settle
  deriving DecidableEq, Repr

/-- The function `showLoading`, as far as the send button goes. -/
def showLoading (show_ : Bool) (w : Widget) : Widget :=
  { w with sendDisabled := show_ }

/-- The function `sendMessage` up to its `await fetch(…)` (lines 56–72): with
neither text nor image it alerts and returns; else it clears the input and
the image, calls `showLoading(true)` and starts a request. -/
def sendMessage (w : Widget) : Widget :=
  if trim w.inputValue = [] ∧ w.selectedImage = none then w
  else showLoading true
    { w with inputValue := [], selectedImage := none, inFlight := w.inFlight + 1 }

/-- The rest of `sendMessage` for one pending request (lines 77–83): the bot
message is appended and `finally` calls `showLoading(false)`. -/
def settleRequest (w : Widget) : Widget :=
  if w.inFlight = 0 then w
  else showLoading false { w with inFlight := w.inFlight - 1 }

/-- One event.  A disabled button dispatches no click; the keypress listener
of lines 252–257 calls `sendMessage` whatever the state of the button. -/
def step (w : Widget) : Event → Widget
  | Event.typeText v => { w with inputValue := v }
  | Event.imageLoaded d => { w with selectedImage := some d }
  | Event.clickSend => if w.sendDisabled then w else sendMessage w
  | Event.pressEnter => sendMessage w
  | Event.settle => settleRequest w

/-- The widget after a sequence of events. -/
def run (w : Widget) (events : List Event) : Widget :=
  events.foldl step w

/-- The widget when the page is loaded. -/
def initialWidget : Widget :=
  { inputValue := [], selectedImage := none, sendDisabled := false, inFlight := 0 }

end QuizParser

namespace QuizParser

/-! ## Basic facts on the building blocks -/

theorem eatLit_eq_some {w s r : Str} : eatLit w s = some r ↔ s = w ++ r := by
  induction w generalizing s with
  | nil => simp [eatLit, eq_comm]
  | cons p ps ih =>
    cases s with
    | nil => simp [eatLit]
    | cons c cs =>
      by_cases h : p = c
      · subst h
        simp [eatLit, ih]
      · simp [eatLit, h, Ne.symm h]

theorem not_ws_of_digit {c : Char} (h : isDigit c = true) : isWhiteSpace c = false := by
  simp only [isDigit, Bool.and_eq_true, decide_eq_true_eq] at h
  simp only [isWhiteSpace, Bool.or_eq_false_iff, Bool.and_eq_false_iff, beq_eq_false_iff_ne,
    decide_eq_false_iff_not]
  omega

theorem not_ws_of_colon {c : Char} (h : isColon c = true) : isWhiteSpace c = false := by
  simp only [isColon, Bool.or_eq_true, beq_iff_eq] at h
  rcases h with h | h <;> subst h <;> decide

theorem skipWS_append_of_all {ws : Str} (rest : Str) (h : ∀ x ∈ ws, isWhiteSpace x = true) :
    skipWS (ws ++ rest) = skipWS rest := by
  induction ws with
  | nil => rfl
  | cons a as ih =>
    have ha : isWhiteSpace a = true := h a (List.mem_cons_self _ _)
    have has : ∀ x ∈ as, isWhiteSpace x = true := fun x hx => h x (List.mem_cons_of_mem _ hx)
    simp only [skipWS, List.cons_append, List.dropWhile_cons, ha, if_true] at ih ⊢
    exact ih has

theorem skipWS_cons_of_not {c : Char} (r : Str) (h : isWhiteSpace c = false) :
    skipWS (c :: r) = c :: r := by
  simp [skipWS, List.dropWhile_cons, h]

theorem skipWS_eq_cons {s : Str} {c : Char} {r : Str} (h : skipWS s = c :: r) :
    ∃ ws, s = ws ++ c :: r ∧ (∀ x ∈ ws, isWhiteSpace x = true) ∧ isWhiteSpace c = false := by
  refine ⟨s.takeWhile isWhiteSpace, ?_, ?_, ?_⟩
  · have := List.takeWhile_append_dropWhile isWhiteSpace s
    rw [skipWS] at h
    rw [h] at this
    exact this.symm
  · intro x hx
    exact List.mem_takeWhile_imp hx
  · have h2 : (s.dropWhile isWhiteSpace).head? = some c := by
      rw [skipWS] at h
      rw [h]; rfl
    have := List.head?_dropWhile_not isWhiteSpace s
    rw [h2] at this
    simpa using this

theorem digitAhead_iff {r : Str} : digitAhead r = true ↔
    ∃ ws c rest, r = ws ++ c :: rest ∧ (∀ x ∈ ws, isWhiteSpace x = true) ∧ isDigit c = true := by
  constructor
  · intro h
    unfold digitAhead at h
    split at h
    · rename_i c rest hs
      obtain ⟨ws, h1, h2, _⟩ := skipWS_eq_cons hs
      exact ⟨ws, c, rest, h1, h2, h⟩
    · exact absurd h (by simp)
  · rintro ⟨ws, c, rest, rfl, hws, hc⟩
    unfold digitAhead
    rw [skipWS_append_of_all _ hws, skipWS_cons_of_not _ (not_ws_of_digit hc)]
    exact hc

theorem afterColon_isSome_iff {r : Str} : (afterColon r).isSome = true ↔
    ∃ ws c rest, r = ws ++ c :: rest ∧ (∀ x ∈ ws, isWhiteSpace x = true) ∧ isColon c = true := by
  constructor
  · intro h
    unfold afterColon at h
    split at h
    · rename_i c rest hs
      obtain ⟨ws, h1, h2, _⟩ := skipWS_eq_cons hs
      by_cases hc : isColon c = true
      · exact ⟨ws, c, rest, h1, h2, hc⟩
      · simp [hc] at h
    · exact absurd h (by simp)
  · rintro ⟨ws, c, rest, rfl, hws, hc⟩
    unfold afterColon
    rw [skipWS_append_of_all _ hws, skipWS_cons_of_not _ (not_ws_of_colon hc)]
    simp [hc]

theorem indicatorAt_iff {s : Str} : indicatorAt s = true ↔
    ∃ w ws c rest, s = w ++ (ws ++ c :: rest) ∧ (∀ x ∈ ws, isWhiteSpace x = true) ∧
      ((w ∈ numberedWords ∧ isDigit c = true) ∨ (w ∈ labelWords ∧ isColon c = true)) := by
  unfold indicatorAt
  rw [Bool.or_eq_true, List.any_eq_true, List.any_eq_true]
  constructor
  · rintro (⟨w, hw, h⟩ | ⟨w, hw, h⟩)
    · split at h
      · rename_i r hr
        obtain ⟨ws, c, rest, rfl, h1, h2⟩ := digitAhead_iff.mp h
        exact ⟨w, ws, c, rest, eatLit_eq_some.mp hr, h1, Or.inl ⟨hw, h2⟩⟩
      · exact absurd h (by simp)
    · split at h
      · rename_i r hr
        obtain ⟨ws, c, rest, rfl, h1, h2⟩ := afterColon_isSome_iff.mp h
        exact ⟨w, ws, c, rest, eatLit_eq_some.mp hr, h1, Or.inr ⟨hw, h2⟩⟩
      · exact absurd h (by simp)
  · rintro ⟨w, ws, c, rest, rfl, h1, (⟨hw, h2⟩ | ⟨hw, h2⟩)⟩
    · refine Or.inl ⟨w, hw, ?_⟩
      rw [eatLit_eq_some.mpr rfl]
      exact digitAhead_iff.mpr ⟨ws, c, rest, rfl, h1, h2⟩
    · refine Or.inr ⟨w, hw, ?_⟩
      rw [eatLit_eq_some.mpr rfl]
      exact afterColon_isSome_iff.mpr ⟨ws, c, rest, rfl, h1, h2⟩

theorem indicatorAt_nil : indicatorAt [] = false := by decide

theorem indicatorTest_iff {s : Str} : indicatorTest s = true ↔
    ∃ pre suf, s = pre ++ suf ∧ indicatorAt suf = true := by
  induction s with
  | nil =>
    simp only [indicatorTest, indicatorAt_nil]
    constructor
    · intro h; exact absurd h (by simp)
    · rintro ⟨pre, suf, h, hs⟩
      have : suf = [] := by
        have := congrArg List.length h
        simp only [List.length_nil, List.length_append] at this
        exact List.length_eq_zero.mp (by omega)
      rw [this, indicatorAt_nil] at hs
      exact hs
  | cons c cs ih =>
    simp only [indicatorTest, Bool.or_eq_true, ih]
    constructor
    · rintro (h | ⟨pre, suf, rfl, h⟩)
      · exact ⟨[], c :: cs, rfl, h⟩
      · exact ⟨c :: pre, suf, rfl, h⟩
    · rintro ⟨pre, suf, h, hs⟩
      cases pre with
      | nil =>
        simp only [List.nil_append] at h
        exact Or.inl (h ▸ hs)
      | cons p ps =>
        simp only [List.cons_append, List.cons.injEq] at h
        exact Or.inr ⟨ps, suf, h.2, hs⟩

theorem indicatorTest_iff_hasIndicator (text : Str) :
    indicatorTest text = true ↔ HasIndicator text := by
  rw [indicatorTest_iff]
  constructor
  · rintro ⟨pre, suf, rfl, h⟩
    obtain ⟨w, ws, c, rest, rfl, h1, h2⟩ := indicatorAt_iff.mp h
    exact ⟨pre, w, ws, c, rest, rfl, h1, h2⟩
  · rintro ⟨pre, w, ws, c, rest, rfl, h1, h2⟩
    exact ⟨pre, _, rfl, indicatorAt_iff.mpr ⟨w, ws, c, rest, rfl, h1, h2⟩⟩

/-! ## Splitting and trimming -/

theorem pushFront_eq (c : Char) (q : Str) (qs : List Str) :
    pushFront c (q :: qs) = (c :: q) :: qs := rfl

/-- The first piece of the split is a prefix of the text, every other piece
is a part of it. -/
theorem splitLines_pieces (s : Str) :
    ∃ q qs, splitLines s = q :: qs ∧ (∃ suf, s = q ++ suf) ∧
      ∀ p ∈ qs, ∃ pre suf, s = pre ++ (p ++ suf) := by
  induction s using splitLines.induct with
  | case1 => exact ⟨[], [], rfl, ⟨[], rfl⟩, by simp⟩
  | case2 =>
    refine ⟨[], [[]], by simp [splitLines], ⟨_, rfl⟩, ?_⟩
    intro p hp
    simp only [List.mem_singleton] at hp
    subst hp
    exact ⟨['\n'], [], rfl⟩
  | case3 c h =>
    exact ⟨[c], [], by simp [splitLines, h], ⟨[], rfl⟩, by simp⟩
  | case4 d rest ih =>
    obtain ⟨q, qs, hq, ⟨suf, hsuf⟩, hrest⟩ := ih
    refine ⟨[], q :: qs, by simp [splitLines, hq], ⟨_, rfl⟩, ?_⟩
    intro p hp
    rcases List.mem_cons.mp hp with rfl | hp
    · exact ⟨['\n'], suf, by simp [hsuf]⟩
    · obtain ⟨pre, suf2, h2⟩ := hrest p hp
      exact ⟨'\n' :: pre, suf2, by simp [h2]⟩
  | case5 c d rest hc hcd ih =>
    obtain ⟨q, qs, hq, ⟨suf, hsuf⟩, hrest⟩ := ih
    refine ⟨[], q :: qs, by simp [splitLines, hc, hcd, hq], ⟨_, rfl⟩, ?_⟩
    intro p hp
    rcases List.mem_cons.mp hp with rfl | hp
    · exact ⟨[c, d], suf, by simp [hsuf]⟩
    · obtain ⟨pre, suf2, h2⟩ := hrest p hp
      exact ⟨c :: d :: pre, suf2, by simp [h2]⟩
  | case6 c d rest hc hcd ih =>
    obtain ⟨q, qs, hq, ⟨suf, hsuf⟩, hrest⟩ := ih
    refine ⟨c :: q, qs, by simp [splitLines, hc, hcd, hq, pushFront_eq], ⟨suf, by simp [hsuf]⟩, ?_⟩
    intro p hp
    obtain ⟨pre, suf2, h2⟩ := hrest p hp
    exact ⟨c :: pre, suf2, by simp [h2]⟩

theorem splitLines_part {s p : Str} (hp : p ∈ splitLines s) :
    ∃ pre suf, s = pre ++ (p ++ suf) := by
  obtain ⟨q, qs, hq, ⟨suf, hsuf⟩, hrest⟩ := splitLines_pieces s
  rw [hq] at hp
  rcases List.mem_cons.mp hp with rfl | hp
  · exact ⟨[], suf, hsuf⟩
  · exact hrest p hp

/-- A character other than LF and CR lands in some piece of the split. -/
theorem mem_splitLines {s : Str} {x : Char} (hx : x ∈ s) (h1 : x ≠ '\n') (h2 : x ≠ '\r') :
    ∃ p ∈ splitLines s, x ∈ p := by
  induction s using splitLines.induct with
  | case1 => simp at hx
  | case2 =>
    simp only [List.mem_singleton] at hx
    exact absurd hx h1
  | case3 c hc =>
    simp only [List.mem_singleton] at hx
    subst hx
    exact ⟨[x], by simp [splitLines, h1], by simp⟩
  | case4 d rest ih =>
    have hx2 : x ∈ d :: rest := by
      rcases List.mem_cons.mp hx with h | h
      · exact absurd h h1
      · exact h
    obtain ⟨p, hp, hxp⟩ := ih hx2
    exact ⟨p, by simp [splitLines, hp], hxp⟩
  | case5 c d rest hc hcd ih =>
    obtain ⟨rfl, rfl⟩ := hcd
    have hx2 : x ∈ rest := by
      rcases List.mem_cons.mp hx with h | h
      · exact absurd h h2
      · rcases List.mem_cons.mp h with h | h
        · exact absurd h h1
        · exact h
    obtain ⟨p, hp, hxp⟩ := ih hx2
    exact ⟨p, by simp [splitLines, hp], hxp⟩
  | case6 c d rest hc hcd ih =>
    obtain ⟨q, qs, hq, -, -⟩ := splitLines_pieces (d :: rest)
    have hs : splitLines (c :: d :: rest) = (c :: q) :: qs := by
      simp [splitLines, hc, hcd, hq, pushFront_eq]
    rcases List.mem_cons.mp hx with h | h
    · exact ⟨c :: q, by simp [hs], by simp [h]⟩
    · obtain ⟨p, hp, hxp⟩ := ih h
      rw [hq] at hp
      rcases List.mem_cons.mp hp with rfl | hp
      · exact ⟨c :: p, by simp [hs], List.mem_cons_of_mem _ hxp⟩
      · exact ⟨p, by simp [hs, hp], hxp⟩

theorem mem_dropWhile_of_false {p : Char → Bool} {s : Str} {x : Char} (hx : x ∈ s)
    (h : p x = false) : x ∈ s.dropWhile p := by
  induction s with
  | nil => simp at hx
  | cons a as ih =>
    rw [List.dropWhile_cons]
    split
    · rename_i ha
      rcases List.mem_cons.mp hx with rfl | hx
      · rw [h] at ha
        exact absurd ha (by simp)
      · exact ih hx
    · exact hx

theorem mem_trim {s : Str} {x : Char} (hx : x ∈ s) (h : isWhiteSpace x = false) :
    x ∈ trim s := by
  unfold trim
  rw [List.mem_reverse]
  apply mem_dropWhile_of_false _ h
  rw [List.mem_reverse]
  exact mem_dropWhile_of_false hx h

/-- The trimmed string is a part of the string. -/
theorem trim_part (s : Str) : ∃ pre suf, s = pre ++ (trim s ++ suf) := by
  refine ⟨s.takeWhile isWhiteSpace,
    ((s.dropWhile isWhiteSpace).reverse.takeWhile isWhiteSpace).reverse, ?_⟩
  have h1 := List.takeWhile_append_dropWhile isWhiteSpace s
  have h2 := List.takeWhile_append_dropWhile isWhiteSpace (s.dropWhile isWhiteSpace).reverse
  have h3 := congrArg List.reverse h2
  rw [List.reverse_append, List.reverse_reverse] at h3
  unfold trim
  rw [h3]
  exact h1.symm

/-- A trimmed string does not start with white space. -/
theorem trim_head {s : Str} {c : Char} {r : Str} (h : trim s = c :: r) :
    isWhiteSpace c = false := by
  have h2 := List.takeWhile_append_dropWhile isWhiteSpace (s.dropWhile isWhiteSpace).reverse
  have h3 := congrArg List.reverse h2
  rw [List.reverse_append, List.reverse_reverse] at h3
  have h4 : trim s = ((s.dropWhile isWhiteSpace).reverse.dropWhile isWhiteSpace).reverse := rfl
  rw [← h4, h] at h3
  have h5 : (s.dropWhile isWhiteSpace).head? = some c := by
    rw [← h3]; rfl
  have := List.head?_dropWhile_not isWhiteSpace s
  rw [h5] at this
  simpa using this

theorem mem_lines {text l : Str} : l ∈ lines text ↔ l ≠ [] ∧ ∃ p ∈ splitLines text, trim p = l := by
  unfold lines
  simp only [List.mem_filter, List.mem_map, decide_eq_true_eq, List.length_pos]
  tauto

/-- Every line is a non-empty part of the text that starts with a character
other than white space. -/
theorem lines_part {text l : Str} (hl : l ∈ lines text) :
    ∃ pre suf, text = pre ++ (l ++ suf) := by
  obtain ⟨-, p, hp, rfl⟩ := mem_lines.mp hl
  obtain ⟨a, b, hab⟩ := splitLines_part hp
  obtain ⟨c, d, hcd⟩ := trim_part p
  refine ⟨a ++ c, d ++ b, ?_⟩
  rw [hab]
  nth_rewrite 1 [hcd]
  simp

theorem lines_head {text l : Str} (hl : l ∈ lines text) :
    ∃ c r, l = c :: r ∧ isWhiteSpace c = false := by
  obtain ⟨hne, p, -, rfl⟩ := mem_lines.mp hl
  cases h : trim p with
  | nil => exact absurd h hne
  | cons c r => exact ⟨c, r, rfl, trim_head h⟩

/-- A text with a character other than white space has at least one line. -/
theorem lines_ne_nil {text : Str} {x : Char} (hx : x ∈ text) (h : isWhiteSpace x = false) :
    lines text ≠ [] := by
  have h1 : x ≠ '\n' := by
    rintro rfl
    exact absurd h (by decide)
  have h2 : x ≠ '\r' := by
    rintro rfl
    exact absurd h (by decide)
  obtain ⟨p, hp, hxp⟩ := mem_splitLines hx h1 h2
  have hm : x ∈ trim p := mem_trim hxp h
  have : trim p ∈ lines text := mem_lines.mpr ⟨List.ne_nil_of_mem hm, p, hp, rfl⟩
  exact List.ne_nil_of_mem this

/-! ## Segmentation -/

theorem titleIndicesFrom_bounds (i : Nat) (ls : List Str) :
    ∀ j ∈ titleIndicesFrom i ls, i ≤ j ∧ j < i + ls.length := by
  induction ls generalizing i with
  | nil => simp [titleIndicesFrom]
  | cons l ls ih =>
    intro j hj
    unfold titleIndicesFrom at hj
    split at hj
    · rcases List.mem_cons.mp hj with rfl | hj
      · simp
      · have := ih (i + 1) j hj
        simp only [List.length_cons]
        omega
    · have := ih (i + 1) j hj
      simp only [List.length_cons]
      omega

theorem titleIndicesFrom_sorted (i : Nat) (ls : List Str) :
    List.Pairwise (· < ·) (titleIndicesFrom i ls) := by
  induction ls generalizing i with
  | nil => simp [titleIndicesFrom]
  | cons l ls ih =>
    unfold titleIndicesFrom
    split
    · rw [List.pairwise_cons]
      refine ⟨?_, ih (i + 1)⟩
      intro j hj
      have := titleIndicesFrom_bounds (i + 1) ls j hj
      omega
    · exact ih (i + 1)

theorem titleIndicesFrom_length (i : Nat) (ls : List Str) :
    (titleIndicesFrom i ls).length = ls.countP titleTest := by
  induction ls generalizing i with
  | nil => simp [titleIndicesFrom]
  | cons l ls ih =>
    unfold titleIndicesFrom
    rw [List.countP_cons]
    split
    · rename_i h
      simp [ih, h]
    · rename_i h
      simp [ih, h]

/-- The number of lines in front of the first title line. -/
theorem titleIndicesFrom_head (i : Nat) (ls : List Str) :
    (titleIndicesFrom i ls).head? =
      if ls.any titleTest then some (i + (ls.takeWhile fun l => !titleTest l).length)
      else none := by
  induction ls generalizing i with
  | nil => simp [titleIndicesFrom]
  | cons l ls ih =>
    unfold titleIndicesFrom
    by_cases h : titleTest l = true
    · simp [h, List.takeWhile_cons]
    · have hf : titleTest l = false := by simpa using h
      simp only [hf, List.any_cons, Bool.false_or, List.takeWhile_cons, Bool.not_false,
        if_true, List.length_cons, Bool.false_eq_true, if_false]
      rw [ih (i + 1)]
      split
      · congr 1; omega
      · rfl

theorem drop_length_takeWhile (p : Str → Bool) (ls : List Str) :
    ls.drop (ls.takeWhile p).length = ls.dropWhile p := by
  induction ls with
  | nil => rfl
  | cons l ls ih =>
    rw [List.takeWhile_cons, List.dropWhile_cons]
    split
    · simpa using ih
    · rfl

theorem indices_sorted {ls : List Str} (h : ls ≠ []) :
    List.Pairwise (· < ·) (indices ls) := by
  have hlen : 0 < ls.length := List.length_pos.mpr h
  unfold indices
  rw [List.pairwise_append]
  split
  · refine ⟨by simp, by simp, ?_⟩
    intro a ha b hb
    simp only [List.mem_singleton] at ha hb
    omega
  · refine ⟨titleIndicesFrom_sorted 0 ls, by simp, ?_⟩
    intro a ha b hb
    simp only [List.mem_singleton] at hb
    have := titleIndicesFrom_bounds 0 ls a ha
    omega

theorem slice_append (ls : List Str) {x y z : Nat} (hxy : x ≤ y) (hyz : y ≤ z) :
    slice ls x y ++ slice ls y z = slice ls x z := by
  unfold slice
  have h1 : z - x = (y - x) + (z - y) := by omega
  have h2 : ls.drop y = (ls.drop x).drop (y - x) := by
    rw [List.drop_drop]
    congr 1
    omega
  rw [h1, List.take_add, h2]

/-- Consecutive slices along an increasing list of bounds add up to one slice. -/
theorem flatten_slices (ls : List Str) (b : List Nat) (x n : Nat)
    (hs : List.Pairwise (· < ·) (x :: b)) (hn : (x :: b).getLast? = some n) :
    (((x :: b).zip b).map fun p => slice ls p.1 p.2).flatten = slice ls x n := by
  induction b generalizing x with
  | nil =>
    simp only [List.getLast?_singleton, Option.some.injEq] at hn
    subst hn
    simp [slice]
  | cons y r ih =>
    rw [List.pairwise_cons] at hs
    rw [List.getLast?_cons_cons] at hn
    have hxy : x < y := hs.1 y (List.mem_cons_self _ _)
    have hyn : y ≤ n := by
      have hmem : n ∈ y :: r := List.mem_of_getLast?_eq_some hn
      rcases List.mem_cons.mp hmem with h | h
      · omega
      · exact Nat.le_of_lt ((List.pairwise_cons.mp hs.2).1 n h)
    simp only [List.zip_cons_cons, List.map_cons, List.flatten_cons]
    rw [ih y hs.2 hn]
    exact slice_append ls (Nat.le_of_lt hxy) hyn

theorem zip_tail_lt (b : List Nat) (hs : List.Pairwise (· < ·) b) :
    ∀ p ∈ b.zip b.tail, p.1 < p.2 := by
  induction b with
  | nil => simp
  | cons x r ih =>
    cases r with
    | nil => simp
    | cons y r =>
      intro p hp
      rw [List.pairwise_cons] at hs
      simp only [List.tail_cons, List.zip_cons_cons, List.mem_cons] at hp
      rcases hp with rfl | hp
      · exact hs.1 y (List.mem_cons_self _ _)
      · exact ih hs.2 p hp

theorem zip_tail_mem (b : List Nat) : ∀ p ∈ b.zip b.tail, p.1 ∈ b ∧ p.2 ∈ b.tail := by
  intro p hp
  exact ⟨(List.of_mem_zip hp).1, (List.of_mem_zip hp).2⟩

/-- Every range is non-empty and lies inside the line list. -/
theorem ranges_bounds {ls : List Str} (h : ls ≠ []) :
    ∀ r ∈ ranges ls, r.1 < r.2 ∧ r.2 ≤ ls.length := by
  intro r hr
  refine ⟨zip_tail_lt _ (indices_sorted h) r hr, ?_⟩
  have hmem : r.2 ∈ indices ls := List.mem_of_mem_tail (zip_tail_mem _ r hr).2
  unfold indices at hmem
  rcases List.mem_append.mp hmem with hm | hm
  · split at hm
    · simp only [List.mem_singleton] at hm
      omega
    · have := titleIndicesFrom_bounds 0 ls r.2 hm
      omega
  · simp only [List.mem_singleton] at hm
    omega

theorem slice_ne_nil {ls : List Str} {x y : Nat} (hxy : x < y) (hy : y ≤ ls.length) :
    slice ls x y ≠ [] := by
  intro h
  have := congrArg List.length h
  simp only [slice, List.length_take, List.length_drop, List.length_nil] at this
  omega

theorem chunks_ne_nil {ls : List Str} (h : ls ≠ []) : ∀ ch ∈ chunks ls, ch ≠ [] := by
  intro ch hch
  unfold chunks at hch
  obtain ⟨r, hr, rfl⟩ := List.mem_map.mp hch
  obtain ⟨h1, h2⟩ := ranges_bounds h r hr
  exact slice_ne_nil h1 h2

theorem mem_of_mem_chunks {ls : List Str} {ch : List Str} (hch : ch ∈ chunks ls) :
    ∀ l ∈ ch, l ∈ ls := by
  unfold chunks at hch
  obtain ⟨r, -, rfl⟩ := List.mem_map.mp hch
  intro l hl
  exact List.mem_of_mem_drop (List.mem_of_mem_take hl)

theorem indices_length (ls : List Str) :
    (indices ls).length =
      (if ls.any titleTest then ls.countP titleTest else 1) + 1 := by
  have hh := titleIndicesFrom_head 0 ls
  unfold indices
  rw [List.length_append]
  by_cases h : ls.any titleTest = true
  · rw [if_pos h] at hh
    have hne : titleIndicesFrom 0 ls ≠ [] := by
      intro h0
      rw [h0] at hh
      simp at hh
    rw [if_neg hne, if_pos h, titleIndicesFrom_length]
    rfl
  · rw [if_neg h] at hh
    have h0 : titleIndicesFrom 0 ls = [] := List.head?_eq_none_iff.mp hh
    rw [if_pos h0, if_neg h]
    rfl

theorem chunks_length (ls : List Str) :
    (chunks ls).length = if ls.any titleTest then ls.countP titleTest else 1 := by
  unfold chunks ranges
  rw [List.length_map, List.length_zip, List.length_tail, indices_length]
  omega

/-- The chunks, put one after the other, are the lines from the first range
start on. -/
theorem chunks_flatten {ls : List Str} (h : ls ≠ []) :
    (chunks ls).flatten =
      if ls.any titleTest then ls.dropWhile (fun l => !titleTest l) else ls := by
  have hs := indices_sorted h
  have hh := titleIndicesFrom_head 0 ls
  unfold chunks ranges
  by_cases ht : ls.any titleTest = true
  · rw [if_pos ht] at hh
    rw [if_pos ht]
    have hne : titleIndicesFrom 0 ls ≠ [] := by
      intro h0
      rw [h0] at hh
      simp at hh
    have hb : indices ls = titleIndicesFrom 0 ls ++ [ls.length] := by
      unfold indices
      rw [if_neg hne]
    obtain ⟨x, r, hxr⟩ := List.exists_cons_of_ne_nil hne
    rw [hxr] at hh hb
    simp only [List.head?_cons, Option.some.injEq, Nat.zero_add] at hh
    rw [hb] at hs ⊢
    have hlast : (x :: (r ++ [ls.length])).getLast? = some ls.length := by
      rw [← List.cons_append, List.getLast?_append]
      simp
    have := flatten_slices ls (r ++ [ls.length]) x ls.length hs hlast
    simp only [List.cons_append, List.tail_cons] at this ⊢
    rw [this, hh, ← drop_length_takeWhile]
    unfold slice
    apply List.take_of_length_le
    simp
  · rw [if_neg ht] at hh
    rw [if_neg ht]
    have h0 : titleIndicesFrom 0 ls = [] := List.head?_eq_none_iff.mp hh
    have hb : indices ls = [0, ls.length] := by
      unfold indices
      rw [if_pos h0]
      rfl
    rw [hb]
    simp [slice]

/-! ## From the text to the questions -/

theorem extractFields_ne_none {ch : List Str} (h : ch ≠ []) : ∃ q, extractFields ch = some q := by
  cases ch with
  | nil => exact absurd rfl h
  | cons l0 r => exact ⟨_, rfl⟩

theorem filterMap_forall₂ {f : List Str → Option Question} (cs : List (List Str))
    (h : ∀ c ∈ cs, ∃ q, f c = some q) :
    List.Forall₂ (fun c q => f c = some q) cs (cs.filterMap f) := by
  induction cs with
  | nil => exact List.Forall₂.nil
  | cons c cs ih =>
    obtain ⟨q, hq⟩ := h c (List.mem_cons_self _ _)
    rw [List.filterMap_cons, hq]
    exact List.Forall₂.cons hq (ih fun c hc => h c (List.mem_cons_of_mem _ hc))

theorem tryParseQuiz_eq_some {text : Str} {qs : List Question} :
    tryParseQuiz text = some qs ↔
      indicatorTest text = true ∧ lines text ≠ [] ∧
        qs = (chunks (lines text)).filterMap extractFields := by
  unfold tryParseQuiz
  by_cases h1 : indicatorTest text = true
  · by_cases h2 : lines text = []
    · simp [h1, h2]
    · have h3 : ¬ (lines text).length = 0 := fun h => h2 (List.length_eq_zero.mp h)
      simp only [h1, h3, Bool.not_true, Bool.false_eq_true, if_false, Option.some.injEq,
        true_and, ne_eq, h2, not_false_eq_true]
      exact eq_comm
  · simp [h1]

/-- The questions are built chunk by chunk, none being skipped. -/
theorem questions_of_chunks {text : Str} {qs : List Question} (h : tryParseQuiz text = some qs) :
    List.Forall₂ (fun ch q => extractFields ch = some q) (chunks (lines text)) qs := by
  obtain ⟨-, h2, rfl⟩ := tryParseQuiz_eq_some.mp h
  exact filterMap_forall₂ _ fun c hc => extractFields_ne_none (chunks_ne_nil h2 c hc)

theorem word_head {w : Str} (hw : w ∈ numberedWords ∨ w ∈ labelWords) :
    ∃ x r, w = x :: r ∧ isWhiteSpace x = false := by
  rcases hw with hw | hw
  · simp only [numberedWords, List.mem_cons, List.mem_singleton, List.not_mem_nil, or_false] at hw
    rcases hw with rfl | rfl | rfl | rfl <;> exact ⟨_, _, rfl, by decide⟩
  · simp only [labelWords, List.mem_cons, List.mem_singleton, List.not_mem_nil, or_false] at hw
    rcases hw with rfl | rfl | rfl | rfl <;> exact ⟨_, _, rfl, by decide⟩

theorem hasIndicator_not_ws {text : Str} (h : HasIndicator text) :
    ∃ x ∈ text, isWhiteSpace x = false := by
  obtain ⟨pre, w, ws, c, rest, rfl, -, hw⟩ := h
  have hw2 : w ∈ numberedWords ∨ w ∈ labelWords := by
    rcases hw with h | h
    · exact Or.inl h.1
    · exact Or.inr h.1
  obtain ⟨x, r, rfl, hx⟩ := word_head hw2
  exact ⟨x, by simp, hx⟩

theorem tryParseQuiz_of_indicator {text : Str} (h : HasIndicator text) :
    tryParseQuiz text = some ((chunks (lines text)).filterMap extractFields) ∧
      (chunks (lines text)).filterMap extractFields ≠ [] := by
  obtain ⟨x, hx, hws⟩ := hasIndicator_not_ws h
  have hl : lines text ≠ [] := lines_ne_nil hx hws
  have ht := tryParseQuiz_eq_some.mpr ⟨(indicatorTest_iff_hasIndicator text).mpr h, hl, rfl⟩
  refine ⟨ht, ?_⟩
  intro h0
  have hf := questions_of_chunks ht
  have hlen := hf.length_eq
  rw [h0, chunks_length] at hlen
  have hpos : 0 < (lines text).countP titleTest ∨ ¬ (lines text).any titleTest = true := by
    by_cases ha : (lines text).any titleTest = true
    · left
      obtain ⟨l, hl1, hl2⟩ := List.any_eq_true.mp ha
      exact List.countP_pos_iff.mpr ⟨l, hl1, hl2⟩
    · exact Or.inr ha
  rcases hpos with hp | hp
  · split at hlen
    · simp only [List.length_nil] at hlen
      omega
    · simp at hlen
  · rw [if_neg hp] at hlen
    simp at hlen

theorem tryParseQuiz_eq_none {text : Str} (h : ¬ HasIndicator text) : tryParseQuiz text = none := by
  have : indicatorTest text = false := by
    rw [← Bool.not_eq_true, indicatorTest_iff_hasIndicator]
    exact h
  simp [tryParseQuiz, this]

theorem titleTest_iff {l : Str} : titleTest l = true ↔
    ∃ w ∈ numberedWords, ∃ ws c rest, l = w ++ (ws ++ c :: rest) ∧
      (∀ x ∈ ws, isWhiteSpace x = true) ∧ isDigit c = true := by
  unfold titleTest
  rw [List.any_eq_true]
  constructor
  · rintro ⟨w, hw, h⟩
    split at h
    · rename_i r hr
      obtain ⟨ws, c, rest, rfl, h1, h2⟩ := digitAhead_iff.mp h
      exact ⟨w, hw, ws, c, rest, eatLit_eq_some.mp hr, h1, h2⟩
    · exact absurd h (by simp)
  · rintro ⟨w, hw, ws, c, rest, rfl, h1, h2⟩
    refine ⟨w, hw, ?_⟩
    rw [eatLit_eq_some.mpr rfl]
    exact digitAhead_iff.mpr ⟨ws, c, rest, rfl, h1, h2⟩

/-- A text with a title line contains a quiz indicator. -/
theorem hasIndicator_of_title {text l : Str} (hl : l ∈ lines text) (ht : titleTest l = true) :
    HasIndicator text := by
  obtain ⟨w, hw, ws, c, rest, rfl, h1, h2⟩ := titleTest_iff.mp ht
  obtain ⟨pre, suf, rfl⟩ := lines_part hl
  exact ⟨pre, w, ws, c, rest ++ suf, by simp, h1, Or.inl ⟨hw, h2⟩⟩

/-! ## Which lines match which pattern -/

theorem matchLabelled_some {alts : List Str} {line m : Str}
    (h : matchLabelled alts line = some m) : ∃ a ∈ alts, ∃ r, line = a ++ r := by
  unfold matchLabelled at h
  obtain ⟨a, ha, hf⟩ := List.exists_of_findSome?_eq_some h
  cases he : eatLit a line with
  | none =>
    rw [he] at hf
    simp at hf
  | some r => exact ⟨a, ha, r, eatLit_eq_some.mp he⟩

theorem stem_head {l m : Str} (h : stemMatch l = some m) : ∃ r, l = '题' :: r := by
  obtain ⟨a, ha, r, rfl⟩ := matchLabelled_some h
  simp only [List.mem_singleton] at ha
  subst ha
  exact ⟨_, rfl⟩

theorem answer_head {l m : Str} (h : answerMatch l = some m) :
    ∃ r, l = '正' :: r ∨ l = '参' :: r := by
  obtain ⟨a, ha, r, rfl⟩ := matchLabelled_some h
  simp only [List.mem_cons, List.mem_singleton, List.not_mem_nil, or_false] at ha
  rcases ha with rfl | rfl | rfl
  · exact ⟨_, Or.inl rfl⟩
  · exact ⟨_, Or.inl rfl⟩
  · exact ⟨_, Or.inr rfl⟩

theorem explain_head {l m : Str} (h : explainMatch l = some m) :
    ∃ r, l = '解' :: r ∨ l = '答' :: r ∨ l = '讲' :: r := by
  obtain ⟨a, ha, r, rfl⟩ := matchLabelled_some h
  simp only [List.mem_cons, List.mem_singleton, List.not_mem_nil, or_false] at ha
  rcases ha with rfl | rfl | rfl | rfl
  · exact ⟨_, Or.inl rfl⟩
  · exact ⟨_, Or.inr (Or.inl rfl)⟩
  · exact ⟨_, Or.inl rfl⟩
  · exact ⟨_, Or.inr (Or.inr rfl)⟩

theorem title_head {l : Str} (h : titleTest l = true) :
    ∃ r, l = '题' :: r ∨ l = '选' :: r ∨ l = '判' :: r ∨ l = '简' :: r := by
  obtain ⟨w, hw, ws, c, rest, rfl, -, -⟩ := titleTest_iff.mp h
  simp only [numberedWords, List.mem_cons, List.mem_singleton, List.not_mem_nil, or_false] at hw
  rcases hw with rfl | rfl | rfl | rfl
  · exact ⟨_, Or.inl rfl⟩
  · exact ⟨_, Or.inr (Or.inl rfl)⟩
  · exact ⟨_, Or.inr (Or.inr (Or.inl rfl))⟩
  · exact ⟨_, Or.inr (Or.inr (Or.inr rfl))⟩

theorem optionMatch_none_of_title {l : Str} (h : titleTest l = true) : optionMatch l = none := by
  obtain ⟨r, rfl | rfl | rfl | rfl⟩ := title_head h <;> simp [optionMatch, isOptionLetter]

theorem optionMatch_none_of_stem {l m : Str} (h : stemMatch l = some m) :
    optionMatch l = none := by
  obtain ⟨r, rfl⟩ := stem_head h
  simp [optionMatch, isOptionLetter]

theorem stemMatch_none_of_explain {l m : Str} (h : explainMatch l = some m) :
    stemMatch l = none := by
  obtain ⟨r, rfl | rfl | rfl⟩ := explain_head h <;> simp [stemMatch, matchLabelled, eatLit]

theorem optionMatch_none_of_explain {l m : Str} (h : explainMatch l = some m) :
    optionMatch l = none := by
  obtain ⟨r, rfl | rfl | rfl⟩ := explain_head h <;> simp [optionMatch, isOptionLetter]

theorem answerMatch_none_of_explain {l m : Str} (h : explainMatch l = some m) :
    answerMatch l = none := by
  obtain ⟨r, rfl | rfl | rfl⟩ := explain_head h <;> simp [answerMatch, matchLabelled, eatLit]

theorem titleTest_false_of_explain {l m : Str} (h : explainMatch l = some m) :
    titleTest l = false := by
  obtain ⟨r, rfl | rfl | rfl⟩ := explain_head h <;> simp [titleTest, numberedWords, eatLit]

/-! ## The scan of a chunk -/

theorem scanLines_title (f : Bool) (k : Nat) (ls : List Str) (q : Question) :
    (scanLines f k ls q).title = q.title := by
  induction ls generalizing f k q with
  | nil => cases k <;> rfl
  | cons l ls ih =>
    cases k with
    | succ k =>
      rw [scanLines]
      exact ih _ _ _
    | zero =>
      rw [scanLines]
      split
      · exact ih _ _ _
      · split
        · rw [ih]
        · split
          · rw [ih]
          · split
            · rw [ih]
            · split
              · rw [ih]
              · exact ih _ _ _

theorem take_length_takeWhile (p : Str → Bool) (ls : List Str) :
    ls.take (ls.takeWhile p).length = ls.takeWhile p := by
  induction ls with
  | nil => rfl
  | cons l ls ih =>
    rw [List.takeWhile_cons]
    split
    · simpa using ih
    · rfl

/-- The options are the option lines of the chunk, in order, as long as the
lines stepped over hold no option line. -/
theorem scanLines_options (f : Bool) (k : Nat) (ls : List Str) (q : Question)
    (hk : ∀ l ∈ ls.take k, optionMatch l = none) :
    (scanLines f k ls q).options =
      q.options ++ (ls.filter fun l => (optionMatch l).isSome).map formatOption := by
  induction ls generalizing f k q with
  | nil => cases k <;> simp [scanLines]
  | cons l ls ih =>
    cases k with
    | succ k =>
      rw [scanLines]
      have hl : optionMatch l = none := hk l (by simp)
      rw [ih false k q (fun x hx => hk x (by simp [hx])), List.filter_cons]
      simp [hl]
    | zero =>
      have h0 : ∀ x ∈ ls.take 0, optionMatch x = none := by simp
      rw [scanLines]
      split
      · rename_i ht
        have hl : optionMatch l = none := by
          simp only [Bool.and_eq_true] at ht
          exact optionMatch_none_of_title ht.2
        rw [ih false 0 q h0, List.filter_cons]
        simp [hl]
      · split
        · rename_i m hm
          have hl : optionMatch l = none := optionMatch_none_of_stem hm
          rw [ih _ 0 _ h0, List.filter_cons]
          simp [hl]
        · split
          · rename_i m hm
            rw [ih _ 0 _ h0, List.filter_cons]
            simp [hm]
          · rename_i hl
            split
            · rw [ih _ 0 _ h0, List.filter_cons]
              simp [hl]
            · split
              · rw [ih, List.filter_cons]
                · simp [hl]
                · intro x hx
                  rw [take_length_takeWhile] at hx
                  have := List.mem_takeWhile_imp hx
                  simp only [isMarker, Bool.not_eq_true', Bool.or_eq_false_iff] at this
                  simpa using this.1.1.2
              · rw [ih _ 0 _ h0, List.filter_cons]
                simp [hl]

theorem scanLines_explanation_none (f : Bool) (k : Nat) (ls : List Str) (q : Question)
    (h : ∀ l ∈ ls, explainMatch l = none) :
    (scanLines f k ls q).explanation = q.explanation := by
  induction ls generalizing f k q with
  | nil => cases k <;> rfl
  | cons l ls ih =>
    have hls : ∀ x ∈ ls, explainMatch x = none := fun x hx => h x (List.mem_cons_of_mem _ hx)
    have hl : explainMatch l = none := h l (List.mem_cons_self _ _)
    cases k with
    | succ k =>
      rw [scanLines]
      exact ih _ _ _ hls
    | zero =>
      rw [scanLines]
      split
      · exact ih _ _ _ hls
      · split
        · rw [ih _ _ _ hls]
        · split
          · rw [ih _ _ _ hls]
          · split
            · rw [ih _ _ _ hls]
            · split
              · rename_i m hm
                rw [hl] at hm
                exact absurd hm (by simp)
              · exact ih _ _ _ hls

theorem scanLines_stem_none (f : Bool) (k : Nat) (ls : List Str) (q : Question)
    (h : ∀ l ∈ ls, stemMatch l = none) :
    (scanLines f k ls q).stem = q.stem := by
  induction ls generalizing f k q with
  | nil => cases k <;> rfl
  | cons l ls ih =>
    have hls : ∀ x ∈ ls, stemMatch x = none := fun x hx => h x (List.mem_cons_of_mem _ hx)
    have hl : stemMatch l = none := h l (List.mem_cons_self _ _)
    cases k with
    | succ k =>
      rw [scanLines]
      exact ih _ _ _ hls
    | zero =>
      rw [scanLines]
      split
      · exact ih _ _ _ hls
      · split
        · rename_i m hm
          rw [hl] at hm
          exact absurd hm (by simp)
        · split
          · rw [ih _ _ _ hls]
          · split
            · rw [ih _ _ _ hls]
            · split
              · rw [ih _ _ _ hls]
              · exact ih _ _ _ hls

/-- Lines in front of the first explanation line are scanned one by one. -/
theorem scanLines_append_of_no_explain (f : Bool) (pre rest : List Str) (q : Question)
    (h : ∀ l ∈ pre, explainMatch l = none) :
    ∃ f2 q2, scanLines f 0 (pre ++ rest) q = scanLines f2 0 rest q2 := by
  induction pre generalizing f q with
  | nil => exact ⟨f, q, rfl⟩
  | cons l ls ih =>
    have hls : ∀ x ∈ ls, explainMatch x = none := fun x hx => h x (List.mem_cons_of_mem _ hx)
    have hl : explainMatch l = none := h l (List.mem_cons_self _ _)
    rw [List.cons_append, scanLines]
    split
    · exact ih _ _ hls
    · split
      · exact ih _ _ hls
      · split
        · exact ih _ _ hls
        · split
          · exact ih _ _ hls
          · split
            · rename_i m hm
              rw [hl] at hm
              exact absurd hm (by simp)
            · exact ih _ _ hls

/-- The scan at an explanation line: the run of unmarked lines behind it is
absorbed, the scan goes on behind the run. -/
theorem scanLines_at_explain (f : Bool) (l m : Str) (post : List Str) (q : Question)
    (h : explainMatch l = some m) :
    scanLines f 0 (l :: post) q =
      scanLines false (post.takeWhile fun x => !isMarker x).length post
        { q with explanation := joinLines (m :: post.takeWhile fun x => !isMarker x) } := by
  rw [scanLines]
  simp [titleTest_false_of_explain h, stemMatch_none_of_explain h,
    optionMatch_none_of_explain h, answerMatch_none_of_explain h, h]

/-! ## Facts on ranges, options and titles -/

theorem zip_tail_chain (b : List Nat) :
    List.Chain' (fun r1 r2 : Nat × Nat => r1.2 = r2.1) (b.zip b.tail) := by
  induction b with
  | nil => simp
  | cons x r ih =>
    cases r with
    | nil => simp
    | cons y r2 =>
      cases r2 with
      | nil => simp
      | cons z r3 =>
        simp only [List.tail_cons, List.zip_cons_cons] at ih ⊢
        exact List.Chain'.cons rfl ih

theorem zip_tail_pairwise (b : List Nat) (hs : List.Pairwise (· < ·) b) :
    List.Pairwise (fun r1 r2 : Nat × Nat => r1.2 ≤ r2.1) (b.zip b.tail) := by
  induction b with
  | nil => simp
  | cons x r ih =>
    cases r with
    | nil => simp
    | cons y r2 =>
      rw [List.pairwise_cons] at hs
      simp only [List.tail_cons, List.zip_cons_cons] at ih ⊢
      rw [List.pairwise_cons]
      refine ⟨?_, ih hs.2⟩
      intro p hp
      have hmem : p.1 ∈ y :: r2 := (List.of_mem_zip hp).1
      rcases List.mem_cons.mp hmem with h | h
      · exact Nat.le_of_eq h.symm
      · exact Nat.le_of_lt ((List.pairwise_cons.mp hs.2).1 _ h)

theorem optionLetter_cases {c : Char} (h : isOptionLetter c = true) :
    c = 'A' ∨ c = 'B' ∨ c = 'C' ∨ c = 'D' ∨ c = 'Ａ' ∨ c = 'Ｂ' ∨ c = 'Ｃ' ∨ c = 'Ｄ' := by
  simp only [isOptionLetter, Bool.or_eq_true, Bool.and_eq_true, decide_eq_true_eq] at h
  have hn : c.toNat = 65 ∨ c.toNat = 66 ∨ c.toNat = 67 ∨ c.toNat = 68 ∨ c.toNat = 65313 ∨
      c.toNat = 65314 ∨ c.toNat = 65315 ∨ c.toNat = 65316 := by omega
  have hc : c = Char.ofNat c.toNat := (Char.ofNat_toNat c).symm
  rcases hn with h | h | h | h | h | h | h | h <;> rw [h] at hc
  · exact Or.inl hc
  · exact Or.inr (Or.inl hc)
  · exact Or.inr (Or.inr (Or.inl hc))
  · exact Or.inr (Or.inr (Or.inr (Or.inl hc)))
  · exact Or.inr (Or.inr (Or.inr (Or.inr (Or.inl hc))))
  · exact Or.inr (Or.inr (Or.inr (Or.inr (Or.inr (Or.inl hc)))))
  · exact Or.inr (Or.inr (Or.inr (Or.inr (Or.inr (Or.inr (Or.inl hc))))))
  · exact Or.inr (Or.inr (Or.inr (Or.inr (Or.inr (Or.inr (Or.inr hc))))))

theorem optionLetter_eq {c : Char} (r : Str) (h : isOptionLetter c = true) :
    optionLetter (c :: r) = [halfWidth c] := by
  rcases optionLetter_cases h with rfl | rfl | rfl | rfl | rfl | rfl | rfl | rfl <;> rfl

theorem skipWS_idem (s : Str) : skipWS (skipWS s) = skipWS s := by
  cases h : skipWS s with
  | nil => rfl
  | cons c r =>
    obtain ⟨-, -, -, hc⟩ := skipWS_eq_cons h
    exact skipWS_cons_of_not r hc

theorem captureRest_eq_some {s m : Str} (h : captureRest s = some m) : skipWS s = m := by
  unfold captureRest at h
  split at h
  · exact absurd h (by simp)
  · simpa using h

/-- The shape of an option line and of the option pushed for it. -/
theorem optionMatch_shape {l m : Str} (h : optionMatch l = some m) :
    ∃ c ws1 d ws2, l = c :: (ws1 ++ d :: (ws2 ++ m)) ∧ isOptionLetter c = true ∧
      (∀ x ∈ ws1, isWhiteSpace x = true) ∧ isOptionSep d = true ∧
      (∀ x ∈ ws2, isWhiteSpace x = true) ∧ skipWS m = m ∧
      formatOption l = halfWidth c :: '.' :: ' ' :: m := by
  cases l with
  | nil => simp [optionMatch] at h
  | cons c r =>
    unfold optionMatch at h
    simp only at h
    by_cases hc : isOptionLetter c = true
    · rw [if_pos hc] at h
      cases hr : skipWS r with
      | nil =>
        rw [hr] at h
        simp at h
      | cons d r2 =>
        rw [hr] at h
        simp only at h
        by_cases hd : isOptionSep d = true
        · rw [if_pos hd] at h
          have hm := captureRest_eq_some h
          obtain ⟨ws1, h1, hws1, -⟩ := skipWS_eq_cons hr
          have h2 := List.takeWhile_append_dropWhile isWhiteSpace r2
          refine ⟨c, ws1, d, r2.takeWhile isWhiteSpace, ?_, hc, hws1, hd, ?_, ?_, ?_⟩
          · rw [h1, ← hm, skipWS, h2]
          · intro x hx
            exact List.mem_takeWhile_imp hx
          · rw [← hm, skipWS_idem]
          · unfold formatOption
            rw [optionLetter_eq r hc]
            unfold optionText
            simp only [hc, if_true, hr, hd, hm]
            rfl
        · rw [if_neg hd] at h
          simp at h
    · rw [if_neg hc] at h
      simp at h

theorem extractFields_eq_some {ch : List Str} {q : Question} (h : extractFields ch = some q) :
    ∃ l0 r, ch = l0 :: r ∧ q.title = removeWS l0 ∧
      q.options = (scanLines true 0 ch
        { title := removeWS l0, stem := [], options := [], answer := [],
          explanation := [] }).options ∧
      q.explanation = (scanLines true 0 ch
        { title := removeWS l0, stem := [], options := [], answer := [],
          explanation := [] }).explanation ∧
      q.answer = (scanLines true 0 ch
        { title := removeWS l0, stem := [], options := [], answer := [],
          explanation := [] }).answer ∧
      ((scanLines true 0 ch
        { title := removeWS l0, stem := [], options := [], answer := [],
          explanation := [] }).stem = [] → q.stem = stemFallback ch) ∧
      ((scanLines true 0 ch
        { title := removeWS l0, stem := [], options := [], answer := [],
          explanation := [] }).stem ≠ [] → q.stem = (scanLines true 0 ch
        { title := removeWS l0, stem := [], options := [], answer := [],
          explanation := [] }).stem) := by
  cases ch with
  | nil => simp [extractFields] at h
  | cons l0 r =>
    simp only [extractFields, Option.some.injEq] at h
    subst h
    refine ⟨l0, r, rfl, ?_⟩
    split
    · rename_i hs
      refine ⟨scanLines_title _ _ _ _, rfl, rfl, rfl, fun _ => rfl, fun hne => absurd hs hne⟩
    · rename_i hs
      refine ⟨scanLines_title _ _ _ _, rfl, rfl, rfl, fun he => absurd he hs, fun _ => rfl⟩

theorem removeWS_ne_nil {l : Str} {c : Char} {r : Str} (h : l = c :: r)
    (hc : isWhiteSpace c = false) : removeWS l ≠ [] := by
  subst h
  simp [removeWS, List.filter_cons, hc]

theorem forall₂_mem_right {R : List Str → Question → Prop} {cs : List (List Str)}
    {qs : List Question} (h : List.Forall₂ R cs qs) {q : Question} (hq : q ∈ qs) :
    ∃ ch ∈ cs, R ch q := by
  induction h with
  | nil => simp at hq
  | cons hab _ ih =>
    rcases List.mem_cons.mp hq with rfl | hq
    · exact ⟨_, List.mem_cons_self _ _, hab⟩
    · obtain ⟨ch, hch, h2⟩ := ih hq
      exact ⟨ch, List.mem_cons_of_mem _ hch, h2⟩

/-! ## The lines of a text given line by line -/

theorem splitLines_of_no_lf (p : Str) (h : ∀ c ∈ p, c ≠ '\n') : splitLines p = [p] := by
  induction p with
  | nil => rfl
  | cons c p2 ih =>
    have hc : c ≠ '\n' := h c (List.mem_cons_self _ _)
    have h2 : ∀ x ∈ p2, x ≠ '\n' := fun x hx => h x (List.mem_cons_of_mem _ hx)
    cases p2 with
    | nil => simp [splitLines, hc]
    | cons d p3 =>
      have hd : d ≠ '\n' := h2 d (List.mem_cons_self _ _)
      rw [splitLines, if_neg hc, if_neg (fun hh => hd hh.2), ih h2]
      rfl

theorem splitLines_lf_cons (rest : Str) : splitLines ('\n' :: rest) = [] :: splitLines rest := by
  cases rest with
  | nil => rfl
  | cons d r => simp [splitLines]

theorem splitLines_append_lf (p rest : Str) (h : ∀ c ∈ p, c ≠ '\n') :
    splitLines (p ++ '\n' :: rest) = dropCR p :: splitLines rest := by
  induction p with
  | nil => exact splitLines_lf_cons rest
  | cons c p2 ih =>
    have hc : c ≠ '\n' := h c (List.mem_cons_self _ _)
    have h2 : ∀ x ∈ p2, x ≠ '\n' := fun x hx => h x (List.mem_cons_of_mem _ hx)
    cases p2 with
    | nil =>
      simp only [List.cons_append, List.nil_append]
      rw [splitLines, if_neg hc]
      by_cases hr : c = '\r'
      · simp [hr, dropCR]
      · rw [if_neg (fun hh => hr hh.1), splitLines_lf_cons]
        simp [dropCR, hr, pushFront]
    | cons d p3 =>
      have hd : d ≠ '\n' := h2 d (List.mem_cons_self _ _)
      have := ih h2
      simp only [List.cons_append] at this ⊢
      rw [splitLines, if_neg hc, if_neg (fun hh => hd hh.2), this]
      rfl

theorem dropCR_cases (p : Str) : dropCR p = p ∨ p = dropCR p ++ ['\r'] := by
  induction p with
  | nil => exact Or.inl rfl
  | cons c p2 ih =>
    cases p2 with
    | nil =>
      by_cases hr : c = '\r'
      · right
        simp [dropCR, hr]
      · left
        simp [dropCR, hr]
    | cons d p3 =>
      rcases ih with h | h
      · left
        rw [dropCR, h]
      · right
        rw [dropCR]
        simp only [List.cons_append, List.cons.injEq, true_and]
        exact h

theorem trim_append_ws (q : Str) {w : Char} (hw : isWhiteSpace w = true) :
    trim (q ++ [w]) = trim q := by
  unfold trim
  rw [List.dropWhile_append]
  split
  · rename_i he
    have he2 : q.dropWhile isWhiteSpace = [] := List.isEmpty_iff.mp he
    simp [he2, List.dropWhile_cons, hw]
  · rw [List.reverse_append]
    simp [List.dropWhile_cons, hw]

theorem trim_dropCR (p : Str) : trim (dropCR p) = trim p := by
  rcases dropCR_cases p with h | h
  · rw [h]
  · nth_rewrite 2 [h]
    rw [trim_append_ws _ (by decide)]

theorem joinLines_cons_cons (a b : Str) (ls : List Str) :
    joinLines (a :: b :: ls) = a ++ '\n' :: joinLines (b :: ls) := by
  simp [joinLines, List.intercalate, List.intersperse]

theorem joinLines_singleton (a : Str) : joinLines [a] = a := by
  simp [joinLines, List.intercalate, List.intersperse]

/-- The trimmed pieces of a text given line by line are the trimmed lines. -/
theorem splitLines_joinLines (L : Str) (ls : List Str)
    (h : ∀ l ∈ L :: ls, ∀ c ∈ l, c ≠ '\n') :
    (splitLines (joinLines (L :: ls))).map trim = (L :: ls).map trim := by
  induction ls generalizing L with
  | nil =>
    rw [joinLines_singleton, splitLines_of_no_lf L (h L (List.mem_cons_self _ _))]
  | cons b ls ih =>
    rw [joinLines_cons_cons, splitLines_append_lf _ _ (h L (List.mem_cons_self _ _)),
      List.map_cons, ih b (fun l hl => h l (List.mem_cons_of_mem _ hl)), trim_dropCR]
    rfl

theorem trim_last {s r : Str} {d : Char} (h : trim s = r ++ [d]) : isWhiteSpace d = false := by
  have h2 := congrArg List.reverse h
  unfold trim at h2
  rw [List.reverse_reverse, List.reverse_append] at h2
  exact (skipWS_eq_cons h2).choose_spec.2.2

theorem trim_eq_self {s : Str} {c d : Char} {r r2 : Str} (h1 : s = c :: r)
    (hc : isWhiteSpace c = false) (h2 : s = r2 ++ [d]) (hd : isWhiteSpace d = false) :
    trim s = s := by
  unfold trim
  have e1 : s.dropWhile isWhiteSpace = s := by
    rw [h1]
    exact skipWS_cons_of_not r hc
  rw [e1]
  have e2 : s.reverse.dropWhile isWhiteSpace = s.reverse := by
    rw [h2, List.reverse_append]
    exact skipWS_cons_of_not _ hd
  rw [e2, List.reverse_reverse]

theorem clean_head {s : Str} (h : Clean s) : ∃ c r, s = c :: r ∧ isWhiteSpace c = false := by
  obtain ⟨hne, ht, -⟩ := h
  obtain ⟨c, r, hs⟩ := List.exists_cons_of_ne_nil hne
  refine ⟨c, r, hs, ?_⟩
  rw [hs] at ht
  exact trim_head ht

theorem clean_last {s : Str} (h : Clean s) : ∃ r d, s = r ++ [d] ∧ isWhiteSpace d = false := by
  obtain ⟨hne, ht, -⟩ := h
  refine ⟨s.dropLast, s.getLast hne, (List.dropLast_append_getLast hne).symm, ?_⟩
  have : trim s = s.dropLast ++ [s.getLast hne] := by
    rw [ht]
    exact (List.dropLast_append_getLast hne).symm
  exact trim_last this

/-- A label in front of a clean text gives a trimmed line. -/
theorem trim_label_append {c : Char} (p : Str) {s : Str} (hc : isWhiteSpace c = false)
    (hs : Clean s) : trim (c :: (p ++ s)) = c :: (p ++ s) := by
  obtain ⟨r, d, hrd, hd⟩ := clean_last hs
  refine @trim_eq_self _ c d (p ++ s) (c :: (p ++ r)) rfl hc ?_ hd
  rw [hrd]
  simp

theorem skipWS_clean {s : Str} (h : Clean s) : skipWS s = s := by
  obtain ⟨c, r, rfl, hc⟩ := clean_head h
  exact skipWS_cons_of_not r hc

theorem captureRest_clean {s : Str} (h : Clean s) : captureRest s = some s := by
  unfold captureRest
  rw [skipWS_clean h]
  have : s.any isLineTerminator = false := by
    rw [List.any_eq_false]
    intro x hx
    simp [h.2.2 x hx]
  simp [this]

theorem clean_no_lf {s : Str} (h : Clean s) : ∀ c ∈ s, c ≠ '\n' := by
  intro c hc hn
  have := h.2.2 c hc
  rw [hn] at this
  exact absurd this (by decide)

/-! ## The lines of a well-formed block -/

theorem matchLabelled_head (a : Str) (rest : List Str) (r m : Str)
    (h : (afterColon r).bind captureRest = some m) :
    matchLabelled (a :: rest) (a ++ r) = some m := by
  unfold matchLabelled
  rw [List.findSome?_cons, eatLit_eq_some.mpr rfl]
  have h2 : ((some r).bind fun r => (afterColon r).bind captureRest) = some m := h
  rw [h2]

theorem afterColon_fullwidth (s : Str) : afterColon ('：' :: s) = some s := by
  unfold afterColon
  rw [skipWS_cons_of_not s (by decide)]
  rfl

theorem stemMatch_stemLine {s : Str} (hs : Clean s) :
    stemMatch ("题干：".toList ++ s) = some s := by
  have := matchLabelled_head "题干".toList [] ('：' :: s) s
    (by rw [afterColon_fullwidth]; exact captureRest_clean hs)
  exact this

theorem answerMatch_answerLine {a : Str} (ha : Clean a) :
    answerMatch ("正确答案：".toList ++ a) = some a := by
  have := matchLabelled_head "正确答案".toList ["正答案".toList, "参考答案".toList] ('：' :: a) a
    (by rw [afterColon_fullwidth]; exact captureRest_clean ha)
  exact this

theorem explainMatch_explainLine {e : Str} (he : Clean e) :
    explainMatch ("解析：".toList ++ e) = some e := by
  have := matchLabelled_head "解析".toList ["答案解析".toList, "解答".toList, "讲解".toList]
    ('：' :: e) e (by rw [afterColon_fullwidth]; exact captureRest_clean he)
  exact this

theorem not_ws_of_optionSep {d : Char} (h : isOptionSep d = true) : isWhiteSpace d = false := by
  simp only [isOptionSep, Bool.or_eq_true, beq_iff_eq] at h
  rcases h with (h | h) | h <;> subst h <;> decide

theorem not_ws_of_optionLetter {c : Char} (h : isOptionLetter c = true) :
    isWhiteSpace c = false := by
  rcases optionLetter_cases h with rfl | rfl | rfl | rfl | rfl | rfl | rfl | rfl <;> decide

theorem optionMatch_optionLine {o : Char × Char × Str} (h1 : isOptionLetter o.1 = true)
    (h2 : isOptionSep o.2.1 = true) (h3 : Clean o.2.2) :
    optionMatch (optionLine o) = some o.2.2 := by
  simp only [optionLine, optionMatch, h1, if_true, skipWS_cons_of_not _ (not_ws_of_optionSep h2),
    h2]
  exact captureRest_clean h3

theorem formatOption_optionLine {o : Char × Char × Str} (h1 : isOptionLetter o.1 = true)
    (h2 : isOptionSep o.2.1 = true) (h3 : Clean o.2.2) :
    formatOption (optionLine o) = expectedOption o := by
  unfold formatOption expectedOption
  rw [show optionLine o = o.1 :: (o.2.1 :: o.2.2) from rfl, optionLetter_eq _ h1]
  simp only [optionText, h1, if_true, skipWS_cons_of_not _ (not_ws_of_optionSep h2), h2,
    skipWS_clean h3]
  rfl

theorem stemMatch_optionLine {o : Char × Char × Str} (h1 : isOptionLetter o.1 = true) :
    stemMatch (optionLine o) = none := by
  unfold optionLine
  rcases optionLetter_cases h1 with h | h | h | h | h | h | h | h <;> rw [h] <;>
    simp [stemMatch, matchLabelled, eatLit]

theorem titleTest_optionLine {o : Char × Char × Str} (h1 : isOptionLetter o.1 = true) :
    titleTest (optionLine o) = false := by
  unfold optionLine
  rcases optionLetter_cases h1 with h | h | h | h | h | h | h | h <;> rw [h] <;>
    simp [titleTest, numberedWords, eatLit]

theorem titleIndicesFrom_eq_nil (i : Nat) (ls : List Str) (h : ∀ l ∈ ls, titleTest l = false) :
    titleIndicesFrom i ls = [] := by
  induction ls generalizing i with
  | nil => rfl
  | cons l ls ih =>
    rw [titleIndicesFrom, h l (List.mem_cons_self _ _)]
    simp only [Bool.false_eq_true, if_false]
    exact ih _ fun x hx => h x (List.mem_cons_of_mem _ hx)

/-- A title line followed by lines that are no title lines is one chunk. -/
theorem chunks_single (l0 : Str) (rest : List Str) (h0 : titleTest l0 = true)
    (h : ∀ l ∈ rest, titleTest l = false) : chunks (l0 :: rest) = [l0 :: rest] := by
  have hb : indices (l0 :: rest) = [0, (l0 :: rest).length] := by
    unfold indices
    rw [titleIndicesFrom, h0, if_pos rfl, titleIndicesFrom_eq_nil _ _ h]
    rfl
  unfold chunks ranges
  rw [hb]
  simp [slice]

/-- The scan of the option lines of a well-formed block. -/
theorem scanLines_optionLines (opts : List (Char × Char × Str)) (rest : List Str)
    (q : Question)
    (h : ∀ o ∈ opts, isOptionLetter o.1 = true ∧ isOptionSep o.2.1 = true ∧ Clean o.2.2) :
    scanLines false 0 (opts.map optionLine ++ rest) q =
      scanLines false 0 rest { q with options := q.options ++ opts.map expectedOption } := by
  induction opts generalizing q with
  | nil => simp
  | cons o os ih =>
    obtain ⟨h1, h2, h3⟩ := h o (List.mem_cons_self _ _)
    rw [List.map_cons, List.cons_append, scanLines]
    simp only [Bool.false_and, Bool.false_eq_true, if_false, stemMatch_optionLine h1,
      optionMatch_optionLine h1 h2 h3, formatOption_optionLine h1 h2 h3]
    rw [ih _ fun x hx => h x (List.mem_cons_of_mem _ hx)]
    simp

theorem lines_joinLines (L : Str) (ls : List Str)
    (h : ∀ l ∈ L :: ls, ∀ c ∈ l, c ≠ '\n') :
    lines (joinLines (L :: ls)) = ((L :: ls).map trim).filter fun l => decide (l.length > 0) := by
  unfold lines
  rw [splitLines_joinLines L ls h]

theorem removeWS_dropWhile (s : Str) : removeWS (s.dropWhile isWhiteSpace) = removeWS s := by
  induction s with
  | nil => rfl
  | cons c r ih =>
    rw [List.dropWhile_cons]
    split
    · rename_i hc
      rw [ih]
      simp [removeWS, List.filter_cons, hc]
    · rfl

theorem removeWS_trim (s : Str) : removeWS (trim s) = removeWS s := by
  have hrev : ∀ t : Str, removeWS t.reverse = (removeWS t).reverse := fun t => by
    simp [removeWS, List.filter_reverse]
  unfold trim
  rw [hrev, removeWS_dropWhile, hrev, List.reverse_reverse, removeWS_dropWhile]

theorem stemLine_facts (s : Str) :
    titleTest ("题干：".toList ++ s) = false := by
  simp [titleTest, numberedWords, eatLit]

theorem answerLine_facts (a : Str) :
    titleTest ("正确答案：".toList ++ a) = false ∧ stemMatch ("正确答案：".toList ++ a) = none ∧
      optionMatch ("正确答案：".toList ++ a) = none := by
  refine ⟨?_, ?_, ?_⟩
  · simp [titleTest, numberedWords, eatLit]
  · simp [stemMatch, matchLabelled, eatLit]
  · simp [optionMatch, isOptionLetter]

theorem explainLine_facts (e : Str) :
    titleTest ("解析：".toList ++ e) = false ∧ stemMatch ("解析：".toList ++ e) = none ∧
      optionMatch ("解析：".toList ++ e) = none ∧ answerMatch ("解析：".toList ++ e) = none := by
  refine ⟨?_, ?_, ?_, ?_⟩
  · simp [titleTest, numberedWords, eatLit]
  · simp [stemMatch, matchLabelled, eatLit]
  · simp [optionMatch, isOptionLetter]
  · simp [answerMatch, matchLabelled, eatLit]

/-- The lines of a well-formed block. -/
theorem lines_wellFormedBlock (T s : Str) (opts : List (Char × Char × Str)) (a e : Str)
    (hT1 : ∀ c ∈ T, c ≠ '\n') (hT2 : titleTest (trim T) = true) (hs : Clean s)
    (ho : ∀ o ∈ opts, isOptionLetter o.1 = true ∧ isOptionSep o.2.1 = true ∧ Clean o.2.2)
    (ha : Clean a) (he : Clean e) :
    lines (wellFormedBlock T s opts a e) =
      trim T :: ("题干：".toList ++ s) ::
        (opts.map optionLine ++ ["正确答案：".toList ++ a, "解析：".toList ++ e]) := by
  have hstem : trim ("题干：".toList ++ s) = "题干：".toList ++ s :=
    trim_label_append (c := '题') "干：".toList (by decide) hs
  have hans : trim ("正确答案：".toList ++ a) = "正确答案：".toList ++ a :=
    trim_label_append (c := '正') "确答案：".toList (by decide) ha
  have hexp : trim ("解析：".toList ++ e) = "解析：".toList ++ e :=
    trim_label_append (c := '解') "析：".toList (by decide) he
  have hopt : ∀ o ∈ opts, trim (optionLine o) = optionLine o := by
    intro o hmem
    obtain ⟨h1, h2, h3⟩ := ho o hmem
    exact trim_label_append (c := o.1) [o.2.1] (not_ws_of_optionLetter h1) h3
  have hoptlf : ∀ o ∈ opts, ∀ c ∈ optionLine o, c ≠ '\n' := by
    intro o hmem c hc
    obtain ⟨h1, h2, h3⟩ := ho o hmem
    simp only [optionLine, List.mem_cons] at hc
    rcases hc with rfl | rfl | hc
    · intro hn
      rw [hn] at h1
      exact absurd h1 (by decide)
    · intro hn
      rw [hn] at h2
      exact absurd h2 (by decide)
    · exact clean_no_lf h3 c hc
  have hlf : ∀ l ∈ T :: ("题干：".toList ++ s) ::
      (opts.map optionLine ++ ["正确答案：".toList ++ a, "解析：".toList ++ e]),
      ∀ c ∈ l, c ≠ '\n' := by
    intro l hl c hc
    rcases List.mem_cons.mp hl with rfl | hl
    · exact hT1 c hc
    rcases List.mem_cons.mp hl with rfl | hl
    · rcases List.mem_append.mp hc with h | h
      · intro hn
        rw [hn] at h
        exact absurd h (by decide)
      · exact clean_no_lf hs c h
    rcases List.mem_append.mp hl with hl | hl
    · obtain ⟨o, ho1, rfl⟩ := List.mem_map.mp hl
      exact hoptlf o ho1 c hc
    simp only [List.mem_cons, List.mem_singleton, List.not_mem_nil, or_false] at hl
    rcases hl with rfl | rfl
    · rcases List.mem_append.mp hc with h | h
      · intro hn
        rw [hn] at h
        exact absurd h (by decide)
      · exact clean_no_lf ha c h
    · rcases List.mem_append.mp hc with h | h
      · intro hn
        rw [hn] at h
        exact absurd h (by decide)
      · exact clean_no_lf he c h
  have hmapopt : (opts.map optionLine).map trim = opts.map optionLine := by
    rw [List.map_map]
    apply List.map_congr_left
    intro o hmem
    exact hopt o hmem
  have hTne : trim T ≠ [] := by
    intro h0
    rw [h0] at hT2
    exact absurd hT2 (by decide)
  unfold wellFormedBlock
  rw [lines_joinLines _ _ hlf]
  simp only [List.map_cons, List.map_append, hstem, hans, hexp, hmapopt, List.map_nil]
  rw [List.filter_eq_self.mpr]
  intro l hl
  rcases List.mem_cons.mp hl with rfl | hl
  · simpa [List.length_pos] using hTne
  rcases List.mem_cons.mp hl with rfl | hl
  · simp
  rcases List.mem_append.mp hl with hl | hl
  · obtain ⟨o, -, rfl⟩ := List.mem_map.mp hl
    simp [optionLine]
  simp only [List.mem_cons, List.mem_singleton, List.not_mem_nil, or_false] at hl
  rcases hl with rfl | rfl <;> simp

/-- The question built from the lines of a well-formed block. -/
theorem extractFields_wellFormedBlock (T s : Str) (opts : List (Char × Char × Str)) (a e : Str)
    (hT2 : titleTest (trim T) = true) (hs : Clean s)
    (ho : ∀ o ∈ opts, isOptionLetter o.1 = true ∧ isOptionSep o.2.1 = true ∧ Clean o.2.2)
    (ha : Clean a) (he : Clean e) :
    extractFields (trim T :: ("题干：".toList ++ s) ::
        (opts.map optionLine ++ ["正确答案：".toList ++ a, "解析：".toList ++ e])) =
      some { title := removeWS T, stem := s, options := opts.map expectedOption, answer := a,
             explanation := e } := by
  have hscan : scanLines true 0 (trim T :: ("题干：".toList ++ s) ::
        (opts.map optionLine ++ ["正确答案：".toList ++ a, "解析：".toList ++ e]))
      { title := removeWS (trim T), stem := [], options := [], answer := [],
        explanation := [] } =
      { title := removeWS T, stem := s, options := opts.map expectedOption, answer := a,
        explanation := e } := by
    rw [scanLines]
    simp only [hT2, Bool.and_self, if_true]
    rw [scanLines]
    simp only [Bool.false_and, Bool.false_eq_true, if_false, stemMatch_stemLine hs]
    rw [scanLines_optionLines opts _ _ ho, scanLines]
    simp only [Bool.false_and, Bool.false_eq_true, if_false, (answerLine_facts a).2.1,
      (answerLine_facts a).2.2, answerMatch_answerLine ha]
    rw [scanLines]
    simp only [Bool.false_and, Bool.false_eq_true, if_false, (explainLine_facts e).2.1,
      (explainLine_facts e).2.2.1, (explainLine_facts e).2.2.2, explainMatch_explainLine he,
      List.takeWhile_nil, List.length_nil, joinLines_singleton, List.nil_append, removeWS_trim]
    rfl
  unfold extractFields
  simp only [hscan]
  rw [if_neg hs.1]

/-! ## The five replacements of `escapeHTML` -/

theorem replaceAll_append (c : Char) (rep a b : Str) :
    replaceAll c rep (a ++ b) = replaceAll c rep a ++ replaceAll c rep b := by
  simp [replaceAll, List.flatMap_append]

theorem escapeHTML_append (a b : Str) : escapeHTML (a ++ b) = escapeHTML a ++ escapeHTML b := by
  simp only [escapeHTML, replaceAll_append]

theorem replaceAll_singleton_ne {c x : Char} (rep : Str) (h : x ≠ c) :
    replaceAll c rep [x] = [x] := by
  simp [replaceAll, List.flatMap, h]

theorem escapeHTML_singleton (x : Char) : escapeHTML [x] = escapeChar x := by
  unfold escapeChar
  by_cases h1 : x = '&'
  · subst h1
    rfl
  by_cases h2 : x = '<'
  · subst h2
    rfl
  by_cases h3 : x = '>'
  · subst h3
    rfl
  by_cases h4 : x = Char.ofNat 34
  · subst h4
    rfl
  by_cases h5 : x = Char.ofNat 39
  · subst h5
    rfl
  rw [if_neg h1, if_neg h2, if_neg h3, if_neg h4, if_neg h5]
  unfold escapeHTML
  rw [replaceAll_singleton_ne _ h1, replaceAll_singleton_ne _ h2, replaceAll_singleton_ne _ h3,
    replaceAll_singleton_ne _ h4, replaceAll_singleton_ne _ h5]

theorem escapeHTML_cons (x : Char) (xs : Str) :
    escapeHTML (x :: xs) = escapeChar x ++ escapeHTML xs := by
  rw [← escapeHTML_singleton, ← escapeHTML_append]
  rfl

theorem escapeHTML_nil : escapeHTML [] = [] := rfl

theorem escapeChar_cases (x : Char) :
    (escapeChar x ∈ entities) ∨
      (escapeChar x = [x] ∧ x ≠ '&' ∧ x ≠ '<' ∧ x ≠ '>' ∧ x ≠ Char.ofNat 34 ∧
        x ≠ Char.ofNat 39) := by
  unfold escapeChar
  by_cases h1 : x = '&'
  · left
    rw [if_pos h1]
    decide
  by_cases h2 : x = '<'
  · left
    rw [if_neg h1, if_pos h2]
    decide
  by_cases h3 : x = '>'
  · left
    rw [if_neg h1, if_neg h2, if_pos h3]
    decide
  by_cases h4 : x = Char.ofNat 34
  · left
    rw [if_neg h1, if_neg h2, if_neg h3, if_pos h4]
    decide
  by_cases h5 : x = Char.ofNat 39
  · left
    rw [if_neg h1, if_neg h2, if_neg h3, if_neg h4, if_pos h5]
    decide
  right
  rw [if_neg h1, if_neg h2, if_neg h3, if_neg h4, if_neg h5]
  exact ⟨rfl, h1, h2, h3, h4, h5⟩

theorem entity_chars {ent : Str} (h : ent ∈ entities) :
    (∀ c ∈ ent, c ≠ '<' ∧ c ≠ '>' ∧ c ≠ Char.ofNat 34 ∧ c ≠ Char.ofNat 39) ∧
      ∃ t, ent = '&' :: t ∧ '&' ∉ t := by
  simp only [entities, List.mem_cons, List.mem_singleton, List.not_mem_nil, or_false] at h
  rcases h with rfl | rfl | rfl | rfl | rfl <;> exact ⟨by decide, _, rfl, by decide⟩

/-! ## The index-level loop and the scan -/

/-- Stepping over `k` lines is dropping them. -/
theorem scanLines_skip (k : Nat) (ls : List Str) (q : Question) :
    scanLines false k ls q = scanLines false 0 (ls.drop k) q := by
  induction k generalizing ls with
  | zero => rfl
  | succ k ih =>
    cases ls with
    | nil => simp [scanLines]
    | cons l r =>
      rw [scanLines, ih]
      rfl

/-- The inner loop absorbs the longest run of unmarked lines and leaves the
outer index on the last line absorbed. -/
theorem absorbLoop_eq (rest : List Str) (j i : Nat) (parts : List Str) :
    absorbLoop rest j i parts =
      (parts ++ rest.takeWhile (fun x => !isMarker x),
        if rest.takeWhile (fun x => !isMarker x) = [] then i
        else j + (rest.takeWhile fun x => !isMarker x).length - 1) := by
  induction rest generalizing j i parts with
  | nil => simp [absorbLoop]
  | cons nxt r ih =>
    rw [absorbLoop]
    by_cases hm : isMarker nxt = true
    · simp [hm, List.takeWhile_cons]
    · have hf : isMarker nxt = false := by simpa using hm
      rw [if_neg hm, ih, List.takeWhile_cons]
      simp only [hf, Bool.not_false, if_true, List.append_assoc, List.singleton_append,
        List.length_cons, reduceCtorEq, if_false]
      congr 1
      split
      · rename_i h0
        rw [h0]
        simp
      · omega

theorem absorbLoop_from (rest : List Str) (i : Nat) (m : Str) :
    absorbLoop rest (i + 1) i [m] =
      (m :: rest.takeWhile (fun x => !isMarker x),
        i + (rest.takeWhile fun x => !isMarker x).length) := by
  rw [absorbLoop_eq]
  congr 1
  split
  · rename_i h
    rw [h]
    rfl
  · rename_i h
    have : 0 < (rest.takeWhile fun x => !isMarker x).length := List.length_pos.mpr h
    omega

/-- With as many iterations allowed as there are lines left, the index-level
loop comes to its end and gives what the scan gives. -/
theorem scanLoop_eq (chunk : List Str) (fuel i : Nat) (q : Question)
    (h : chunk.length ≤ i + fuel) :
    scanLoop chunk fuel i q = some (scanLines (decide (i = 0)) 0 (chunk.drop i) q) := by
  induction fuel generalizing i q with
  | zero =>
    have h1 : ¬ i < chunk.length := by omega
    have h2 : chunk.drop i = [] := List.drop_eq_nil_of_le (by omega)
    simp [scanLoop, h1, h2, scanLines]
  | succ fuel ih =>
    rw [scanLoop]
    cases hget : chunk[i]? with
    | none =>
      have h2 : chunk.drop i = [] := List.drop_eq_nil_of_le (List.getElem?_eq_none_iff.mp hget)
      simp [h2, scanLines]
    | some line =>
      obtain ⟨hi, hline⟩ := List.getElem?_eq_some.mp hget
      have hdrop : chunk.drop i = line :: chunk.drop (i + 1) := by
        rw [← hline]
        exact List.drop_eq_getElem_cons hi
      have hfalse : decide (i + 1 = 0) = false := by simp
      have hnext : ∀ q2, scanLoop chunk fuel (i + 1) q2 =
          some (scanLines false 0 (chunk.drop (i + 1)) q2) := by
        intro q2
        rw [ih (i + 1) q2 (by omega), hfalse]
      simp only
      rw [hdrop, scanLines]
      by_cases hc : i = 0 ∧ titleTest line = true
      · have hc2 : (decide (i = 0) && titleTest line) = true := by simp [hc.1, hc.2]
        rw [if_pos hc, if_pos hc2, hnext]
      · have hc2 : ¬ (decide (i = 0) && titleTest line) = true := by simpa using hc
        rw [if_neg hc, if_neg hc2]
        cases hs : stemMatch line with
        | some m => simp only [hnext]
        | none =>
          cases hop : optionMatch line with
          | some m => simp only [hnext]
          | none =>
            cases han : answerMatch line with
            | some m => simp only [hnext]
            | none =>
              cases hex : explainMatch line with
              | some m =>
                simp only [absorbLoop_from]
                rw [ih _ _ (by omega), scanLines_skip, List.drop_drop]
                have e1 : decide (i + (List.takeWhile (fun x => !isMarker x)
                    (chunk.drop (i + 1))).length + 1 = 0) = false := by simp
                have e2 : i + (List.takeWhile (fun x => !isMarker x)
                    (chunk.drop (i + 1))).length + 1 =
                    i + 1 + (List.takeWhile (fun x => !isMarker x)
                      (chunk.drop (i + 1))).length := by omega
                rw [e1, e2]
              | none => simp only [hnext]

/-! ## Answer and explanation of a parsed question -/

theorem mem_joinLines {parts : List Str} {l : Str} {c : Char} (hl : l ∈ parts) (hc : c ∈ l) :
    c ∈ joinLines parts := by
  induction parts with
  | nil => simp at hl
  | cons a rest ih =>
    cases rest with
    | nil =>
      simp only [List.mem_singleton] at hl
      subst hl
      rw [joinLines_singleton]
      exact hc
    | cons b rest2 =>
      rw [joinLines_cons_cons]
      rcases List.mem_cons.mp hl with rfl | hl
      · exact List.mem_append_left _ hc
      · exact List.mem_append_right _ (List.mem_cons_of_mem _ (ih hl))

theorem solid_of_skipWS {m : Str} (h : skipWS m = m) : Solid m := by
  cases m with
  | nil => exact Or.inl rfl
  | cons c r =>
    obtain ⟨-, -, -, hc⟩ := skipWS_eq_cons h
    exact Or.inr ⟨c, List.mem_cons_self _ _, hc⟩

theorem matchLabelled_solid {alts : List Str} {line m : Str}
    (h : matchLabelled alts line = some m) : Solid m := by
  unfold matchLabelled at h
  obtain ⟨a, -, hf⟩ := List.exists_of_findSome?_eq_some h
  cases he : eatLit a line with
  | none =>
    rw [he] at hf
    simp at hf
  | some r =>
    rw [he] at hf
    have hf2 : (afterColon r).bind captureRest = some m := hf
    cases hc : afterColon r with
    | none =>
      rw [hc] at hf2
      simp at hf2
    | some r2 =>
      rw [hc] at hf2
      have hf3 : captureRest r2 = some m := hf2
      have := captureRest_eq_some hf3
      apply solid_of_skipWS
      rw [← this, skipWS_idem]

theorem solid_joinLines {m : Str} {run : List Str} (hm : Solid m)
    (hrun : ∀ l ∈ run, ∃ c ∈ l, isWhiteSpace c = false) : Solid (joinLines (m :: run)) := by
  rcases hm with rfl | ⟨c, hc, hws⟩
  · cases run with
    | nil => exact Or.inl (by rw [joinLines_singleton])
    | cons l r =>
      obtain ⟨c, hc, hws⟩ := hrun l (List.mem_cons_self _ _)
      exact Or.inr ⟨c, mem_joinLines (List.mem_cons_of_mem _ (List.mem_cons_self _ _)) hc, hws⟩
  · exact Or.inr ⟨c, mem_joinLines (List.mem_cons_self _ _) hc, hws⟩

/-- The scan keeps answer and explanation empty or with a character other
than white space. -/
theorem scanLines_solid (f : Bool) (k : Nat) (ls : List Str) (q : Question)
    (hls : ∀ l ∈ ls, ∃ c ∈ l, isWhiteSpace c = false)
    (ha : Solid q.answer) (he : Solid q.explanation) :
    Solid (scanLines f k ls q).answer ∧ Solid (scanLines f k ls q).explanation := by
  induction ls generalizing f k q with
  | nil => cases k <;> exact ⟨ha, he⟩
  | cons l ls ih =>
    have hls2 : ∀ x ∈ ls, ∃ c ∈ x, isWhiteSpace c = false :=
      fun x hx => hls x (List.mem_cons_of_mem _ hx)
    cases k with
    | succ k =>
      rw [scanLines]
      exact ih _ _ _ hls2 ha he
    | zero =>
      rw [scanLines]
      split
      · exact ih _ _ _ hls2 ha he
      · split
        · exact ih _ _ _ hls2 ha he
        · split
          · exact ih _ _ _ hls2 ha he
          · split
            · rename_i m hm
              exact ih _ _ _ hls2 (matchLabelled_solid hm) he
            · split
              · rename_i m hm
                refine ih _ _ _ hls2 ha (solid_joinLines (matchLabelled_solid hm) ?_)
                intro x hx
                exact hls2 x ((List.takeWhile_sublist _).subset hx)
              · exact ih _ _ _ hls2 ha he

theorem hasText_iff_of_solid {s : Str} (h : Solid s) : hasText s = true ↔ s ≠ [] := by
  unfold hasText
  rw [decide_eq_true_eq]
  show 0 < (trim s).length ↔ s ≠ []
  rw [List.length_pos]
  constructor
  · intro ht hs
    rw [hs] at ht
    exact ht rfl
  · intro hs
    rcases h with h | ⟨c, hc, hws⟩
    · exact absurd h hs
    · exact List.ne_nil_of_mem (mem_trim hc hws)

/-- In a question built by `tryParseQuiz`, answer and explanation are empty
or hold a character other than white space. -/
theorem parsed_question_solid {text : Str} {qs : List Question}
    (h : tryParseQuiz text = some qs) {q : Question} (hq : q ∈ qs) :
    Solid q.answer ∧ Solid q.explanation := by
  obtain ⟨ch, hch, hq2⟩ := forall₂_mem_right (questions_of_chunks h) hq
  obtain ⟨l0, r, -, -, -, he, ha, -⟩ := extractFields_eq_some hq2
  rw [he, ha]
  refine (scanLines_solid true 0 ch
    { title := removeWS l0, stem := [], options := [], answer := [], explanation := [] }
    ?_ (Or.inl rfl) (Or.inl rfl))
  intro l hl
  obtain ⟨c, r2, hl2, hws⟩ := lines_head (mem_of_mem_chunks hch l hl)
  exact ⟨c, by rw [hl2]; exact List.mem_cons_self _ _, hws⟩

/-! ## The toggle of a card -/

theorem afterClicks_succ (n : Nat) (t : Toggle) :
    afterClicks (n + 1) t = clickToggle (afterClicks n t) :=
  Function.iterate_succ_apply' clickToggle n t

/-- The toggle of a fresh card after `n` clicks. -/
theorem afterClicks_fresh (a e : Option Str) (n : Nat) :
    afterClicks n { label := showLabel, detailClasses := ["quiz-detail".toList, hiddenClass],
                    answerValue := a, explainValue := e } =
      { label := if n % 2 = 0 then showLabel else hideLabel,
        detailClasses :=
          if n % 2 = 0 then ["quiz-detail".toList, hiddenClass] else ["quiz-detail".toList],
        answerValue := a, explainValue := e } := by
  induction n with
  | zero => rfl
  | succ n ih =>
    rw [afterClicks_succ, ih]
    rcases Nat.mod_two_eq_zero_or_one n with h | h
    · have h1 : (n + 1) % 2 = 1 := by omega
      rw [h, h1]
      rfl
    · have h1 : (n + 1) % 2 = 0 := by omega
      rw [h, h1]
      rfl

/-- Hidden state and label of a fresh toggle after `n` clicks. -/
theorem afterClicks_fresh_facts (a e : Option Str) (n : Nat) :
    (isHidden (afterClicks n
        { label := showLabel, detailClasses := ["quiz-detail".toList, hiddenClass],
          answerValue := a, explainValue := e }) = true ↔ n % 2 = 0) ∧
    ((afterClicks n
        { label := showLabel, detailClasses := ["quiz-detail".toList, hiddenClass],
          answerValue := a, explainValue := e }).label = showLabel ↔ isHidden (afterClicks n
        { label := showLabel, detailClasses := ["quiz-detail".toList, hiddenClass],
          answerValue := a, explainValue := e }) = true) ∧
    ((afterClicks n
        { label := showLabel, detailClasses := ["quiz-detail".toList, hiddenClass],
          answerValue := a, explainValue := e }).label = hideLabel ↔ isHidden (afterClicks n
        { label := showLabel, detailClasses := ["quiz-detail".toList, hiddenClass],
          answerValue := a, explainValue := e }) = false) := by
  have h1 : (["quiz-detail".toList, hiddenClass].contains hiddenClass) = true := by decide
  have h2 : (["quiz-detail".toList].contains hiddenClass) = false := by decide
  have h3 : showLabel ≠ hideLabel := by decide
  have e1 : ∀ t : Toggle, t.detailClasses = ["quiz-detail".toList, hiddenClass] →
      isHidden t = true := fun t ht => by
    unfold isHidden
    rw [ht]
    exact h1
  have e2 : ∀ t : Toggle, t.detailClasses = ["quiz-detail".toList] →
      isHidden t = false := fun t ht => by
    unfold isHidden
    rw [ht]
    exact h2
  rw [afterClicks_fresh]
  rcases Nat.mod_two_eq_zero_or_one n with h0 | h0
  · rw [h0]
    have hh := e1 { label := showLabel, detailClasses := ["quiz-detail".toList, hiddenClass],
                    answerValue := a, explainValue := e } rfl
    refine ⟨⟨fun _ => rfl, fun _ => hh⟩, ⟨fun _ => hh, fun _ => rfl⟩, ?_⟩
    constructor
    · intro hl
      exact absurd hl h3
    · intro hf
      have hf2 := hh.symm.trans hf
      exact absurd hf2 (by simp)
  · rw [h0]
    have hh := e2 { label := hideLabel, detailClasses := ["quiz-detail".toList],
                    answerValue := a, explainValue := e } rfl
    refine ⟨?_, ?_, ⟨fun _ => hh, fun _ => rfl⟩⟩
    · constructor
      · intro hf
        have hf2 := hh.symm.trans hf
        exact absurd hf2 (by simp)
      · intro hf
        exact absurd hf (by simp)
    · constructor
      · intro hl
        exact absurd hl.symm h3
      · intro hf
        have hf2 := hh.symm.trans hf
        exact absurd hf2 (by simp)

theorem mem_of_mem_enum {qs : List Question} {p : Nat × Question} (h : p ∈ qs.enum) :
    p.2 ∈ qs := by
  obtain ⟨i, q⟩ := p
  obtain ⟨hi, hq⟩ := List.mem_enum h
  rw [hq]
  exact List.getElem_mem hi

/-! ## The send button -/

/-- Through clicks alone (no Enter keypress) at most one request is pending,
and the button is disabled while it is. -/
theorem click_path_single_request (events : List Event)
    (h : Event.pressEnter ∉ events) :
    (run initialWidget events).inFlight ≤ 1 ∧
      ((run initialWidget events).inFlight = 1 →
        (run initialWidget events).sendDisabled = true) := by
  suffices hs : ∀ (w : Widget), (w.inFlight ≤ 1 ∧ (w.inFlight = 1 → w.sendDisabled = true)) →
      ((run w events).inFlight ≤ 1 ∧
        ((run w events).inFlight = 1 → (run w events).sendDisabled = true)) from
    hs initialWidget ⟨by decide, by decide⟩
  induction events with
  | nil => exact fun w hw => hw
  | cons ev evs ih =>
    intro w hw
    have hev : ev ≠ Event.pressEnter := fun he => h (by rw [he]; exact List.mem_cons_self _ _)
    have hevs : Event.pressEnter ∉ evs := fun he => h (List.mem_cons_of_mem _ he)
    apply ih hevs
    cases ev with
    | typeText v => exact hw
    | imageLoaded d => exact hw
    | pressEnter => exact absurd rfl hev
    | clickSend =>
      simp only [step]
      by_cases hd : w.sendDisabled = true
      · rw [if_pos hd]
        exact hw
      · rw [if_neg hd]
        have h0 : w.inFlight = 0 := by
          have := hw.2
          have := hw.1
          by_contra hne
          exact hd (hw.2 (by omega))
        unfold sendMessage
        split
        · exact hw
        · simp [showLoading, h0]
    | settle =>
      simp only [step, settleRequest]
      split
      · exact hw
      · have := hw.1
        simp only [showLoading]
        constructor
        · omega
        · intro h1
          omega

/-! ## The mermaid guard of `appendMessage` -/

theorem mermaidAt_head {c : Char} {cs : Str} {r : Str × Str} (h : mermaidAt (c :: cs) = some r) :
    c = Char.ofNat 96 := by
  unfold mermaidAt at h
  cases he : eatLit fence (c :: cs) with
  | none =>
    rw [he] at h
    simp at h
  | some r1 =>
    have := eatLit_eq_some.mp he
    have h2 : c :: cs = Char.ofNat 96 :: (Char.ofNat 96 :: Char.ofNat 96 :: r1) := this
    exact (List.cons.inj h2).1

/-- A text with a mermaid block holds a backtick. -/
theorem findMermaid_backtick {text : Str} {m : Str × Str × Str}
    (h : findMermaid text = some m) : Char.ofNat 96 ∈ text := by
  induction text generalizing m with
  | nil => simp [findMermaid] at h
  | cons c cs ih =>
    rw [findMermaid] at h
    cases hm : mermaidAt (c :: cs) with
    | some r =>
      rw [mermaidAt_head hm]
      exact List.mem_cons_self _ _
    | none =>
      rw [hm] at h
      cases hf : findMermaid cs with
      | none =>
        rw [hf] at h
        simp at h
      | some m2 => exact List.mem_cons_of_mem _ (ih hf)

theorem appendMessage_bot_of_mermaid {text : Str} {m : Str × Str × Str} (img : Option Str)
    (h : findMermaid text = some m) :
    (appendMessage text MessageType.bot img).body =
      Rendering.mermaid (trim m.2.1) (trim (m.1 ++ m.2.2)) := by
  simp [appendMessage, h]

theorem appendMessage_bot_of_list {text : Str} {qs : List Question} (img : Option Str)
    (hm : findMermaid text = none) (h : tryParseQuiz text = some qs) (hne : qs ≠ []) :
    (appendMessage text MessageType.bot img).body = Rendering.cards qs := by
  have hpos : 0 < qs.length := List.length_pos.mpr hne
  simp [appendMessage, hm, h, hpos]

theorem appendMessage_bot_of_null {text : Str} (img : Option Str)
    (hm : findMermaid text = none) (h : tryParseQuiz text = none) :
    (appendMessage text MessageType.bot img).body = Rendering.markdown text := by
  simp [appendMessage, hm, h]

/-! ## Properties of the specification -/

/-- C1, as stated, fails: a bot text with a mermaid block and a quiz indicator
makes `tryParseQuiz` return a list, yet `appendMessage` takes the mermaid
branch and renders no card; a bot text with a mermaid block and no indicator
is not rendered through the markdown path of the whole text. -/
theorem mermaid_block_renders_no_cards :
    tryParseQuiz "```mermaid\ngraph TD\n```\n题目1\n题干：甲".toList =
      some [{ title := "题目1".toList, stem := "甲".toList, options := [], answer := [],
              explanation := [] }] ∧
    (appendMessage "```mermaid\ngraph TD\n```\n题目1\n题干：甲".toList MessageType.bot none).body =
      Rendering.mermaid "graph TD".toList "题目1\n题干：甲".toList ∧
    tryParseQuiz "```Mermaid\ngraph TD\n```".toList = none ∧
    (appendMessage "```Mermaid\ngraph TD\n```".toList MessageType.bot none).body =
      Rendering.mermaid "graph TD".toList [] ∧
    (appendMessage "```Mermaid\ngraph TD\n```".toList MessageType.bot none).body ≠
      Rendering.markdown "```Mermaid\ngraph TD\n```".toList := by
  decide

/-- C1, amended: `tryParseQuiz` returns a question list, which is never empty,
exactly when the text contains a quiz indicator, and `null` otherwise; a text
made of white space only gives `null` and goes through the markdown path.
For a bot message without mermaid block `appendMessage` renders the quiz
cards when the list is returned and the text through the markdown path when
`null` is; a bot message with a mermaid block takes the mermaid branch,
whatever `tryParseQuiz` would return. -/
theorem tryParseQuiz_list_iff_indicator (text : Str) (img : Option Str) :
    ((∃ qs, tryParseQuiz text = some qs ∧ qs ≠ []) ↔ HasIndicator text) ∧
    (¬ HasIndicator text → tryParseQuiz text = none) ∧
    ((∀ c ∈ text, isWhiteSpace c = true) →
      tryParseQuiz text = none ∧
        (appendMessage text MessageType.bot img).body = Rendering.markdown text) ∧
    (findMermaid text = none →
      (HasIndicator text →
        ∃ qs, tryParseQuiz text = some qs ∧ qs ≠ [] ∧
          (appendMessage text MessageType.bot img).body = Rendering.cards qs) ∧
      (¬ HasIndicator text →
        (appendMessage text MessageType.bot img).body = Rendering.markdown text)) ∧
    (∀ m, findMermaid text = some m →
      (appendMessage text MessageType.bot img).body =
        Rendering.mermaid (trim m.2.1) (trim (m.1 ++ m.2.2))) := by
  refine ⟨⟨?_, ?_⟩, tryParseQuiz_eq_none, ?_, ?_, ?_⟩
  · rintro ⟨qs, hqs, -⟩
    by_contra hc
    rw [tryParseQuiz_eq_none hc] at hqs
    exact absurd hqs (by simp)
  · intro h
    obtain ⟨h1, h2⟩ := tryParseQuiz_of_indicator h
    exact ⟨_, h1, h2⟩
  · intro hall
    have hno : ¬ HasIndicator text := by
      intro h
      obtain ⟨x, hx, hws⟩ := hasIndicator_not_ws h
      rw [hall x hx] at hws
      exact absurd hws (by simp)
    have hm : findMermaid text = none := by
      cases hf : findMermaid text with
      | none => rfl
      | some m =>
        have := hall _ (findMermaid_backtick hf)
        exact absurd this (by decide)
    exact ⟨tryParseQuiz_eq_none hno, appendMessage_bot_of_null img hm (tryParseQuiz_eq_none hno)⟩
  · intro hm
    constructor
    · intro h
      obtain ⟨h1, h2⟩ := tryParseQuiz_of_indicator h
      exact ⟨_, h1, h2, appendMessage_bot_of_list img hm h1 h2⟩
    · intro h
      exact appendMessage_bot_of_null img hm (tryParseQuiz_eq_none h)
  · intro m hm
    exact appendMessage_bot_of_mermaid img hm

/-- C1 amended, at the block of scenario 1, which holds no mermaid block (a
list is returned and the cards are rendered), and at the text made of a
blank, a tab and a line break. -/
theorem tryParseQuiz_list_iff_indicator_witness :
    (findMermaid "题目1：\n题干：甲\nA.乙\n正确答案：A".toList = none ∧
      tryParseQuiz "题目1：\n题干：甲\nA.乙\n正确答案：A".toList =
        some [{ title := "题目1：".toList, stem := "甲".toList, options := ["A. 乙".toList],
                answer := "A".toList, explanation := [] }] ∧
      ∃ qs, tryParseQuiz "题目1：\n题干：甲\nA.乙\n正确答案：A".toList = some qs ∧ qs ≠ [] ∧
        (appendMessage "题目1：\n题干：甲\nA.乙\n正确答案：A".toList MessageType.bot none).body =
          Rendering.cards qs) ∧
    ((∀ c ∈ " \t\n".toList, isWhiteSpace c = true) ∧
      tryParseQuiz " \t\n".toList = none ∧
      (appendMessage " \t\n".toList MessageType.bot none).body =
        Rendering.markdown " \t\n".toList) :=
  ⟨⟨by decide, by decide,
      ((tryParseQuiz_list_iff_indicator "题目1：\n题干：甲\nA.乙\n正确答案：A".toList none).2.2.2.1
        (by decide)).1 ((indicatorTest_iff_hasIndicator _).mp (by decide))⟩,
    ⟨by decide, (tryParseQuiz_list_iff_indicator " \t\n".toList none).2.2.1 (by decide)⟩⟩

/-- C2: when at least one line matches the title pattern, `tryParseQuiz`
returns a list with exactly one question per title line. -/
theorem tryParseQuiz_length_eq_titles (text : Str)
    (h : ∃ l ∈ lines text, titleTest l = true) :
    ∃ qs, tryParseQuiz text = some qs ∧ qs.length = (lines text).countP titleTest := by
  obtain ⟨l, hl, ht⟩ := h
  obtain ⟨h1, -⟩ := tryParseQuiz_of_indicator (hasIndicator_of_title hl ht)
  refine ⟨_, h1, ?_⟩
  have hlen := (questions_of_chunks h1).length_eq
  rw [← hlen, chunks_length]
  have : (lines text).any titleTest = true := List.any_eq_true.mpr ⟨l, hl, ht⟩
  rw [if_pos this]

/-- C2, at a text with two title lines and a line in front of them. -/
theorem tryParseQuiz_length_eq_titles_witness :
    (∃ l ∈ lines "前言\n题目1：\n题干：甲\n题目 2\nA.乙".toList, titleTest l = true) ∧
      ∃ qs, tryParseQuiz "前言\n题目1：\n题干：甲\n题目 2\nA.乙".toList = some qs ∧
        qs.length = (lines "前言\n题目1：\n题干：甲\n题目 2\nA.乙".toList).countP titleTest :=
  ⟨⟨"题目1：".toList, by decide, by decide⟩,
    tryParseQuiz_length_eq_titles _ ⟨"题目1：".toList, by decide, by decide⟩⟩

/-- C3: round trip of a well-formed block.  For a title line `T`, a stem line
`题干：s`, option lines (letter `A`–`D` of either width, separator, text), an
answer line `正确答案：a` and an explanation line `解析：e`, with `s`, the option
texts, `a` and `e` non-empty, trimmed and without line break, `tryParseQuiz`
returns exactly one question: the title is `T` without white space, the stem
`s`, the options the half-width letter, a dot, a blank and the text, in input
order, the answer `a` and the explanation `e`. -/
theorem roundtrip_wellFormedBlock (T s : Str) (opts : List (Char × Char × Str)) (a e : Str)
    (hT1 : ∀ c ∈ T, c ≠ '\n') (hT2 : titleTest (trim T) = true) (hs : Clean s)
    (ho : ∀ o ∈ opts, isOptionLetter o.1 = true ∧ isOptionSep o.2.1 = true ∧ Clean o.2.2)
    (ha : Clean a) (he : Clean e) :
    tryParseQuiz (wellFormedBlock T s opts a e) =
      some [{ title := removeWS T, stem := s, options := opts.map expectedOption,
              answer := a, explanation := e }] := by
  have hl := lines_wellFormedBlock T s opts a e hT1 hT2 hs ho ha he
  have hmem : trim T ∈ lines (wellFormedBlock T s opts a e) := by
    rw [hl]
    exact List.mem_cons_self _ _
  obtain ⟨h1, -⟩ := tryParseQuiz_of_indicator (hasIndicator_of_title hmem hT2)
  rw [h1, hl, chunks_single _ _ hT2]
  · rw [List.filterMap_cons, extractFields_wellFormedBlock T s opts a e hT2 hs ho ha he]
    rfl
  · intro l hl2
    rcases List.mem_cons.mp hl2 with rfl | hl2
    · exact stemLine_facts s
    rcases List.mem_append.mp hl2 with hl2 | hl2
    · obtain ⟨o, ho1, rfl⟩ := List.mem_map.mp hl2
      exact titleTest_optionLine (ho o ho1).1
    simp only [List.mem_cons, List.mem_singleton, List.not_mem_nil, or_false] at hl2
    rcases hl2 with rfl | rfl
    · exact (answerLine_facts a).1
    · exact (explainLine_facts e).1

/-- C3, at the block of scenario 1. -/
theorem roundtrip_wellFormedBlock_witness :
    wellFormedBlock "题目1：".toList "中国共产党成立于哪一年？".toList
        [('A', '.', "1920".toList), ('B', '.', "1921".toList), ('C', '.', "1922".toList)]
        "B".toList "中共一大于1921年召开。".toList =
      "题目1：\n题干：中国共产党成立于哪一年？\nA.1920\nB.1921\nC.1922\n正确答案：B\n解析：中共一大于1921年召开。".toList ∧
    tryParseQuiz (wellFormedBlock "题目1：".toList "中国共产党成立于哪一年？".toList
        [('A', '.', "1920".toList), ('B', '.', "1921".toList), ('C', '.', "1922".toList)]
        "B".toList "中共一大于1921年召开。".toList) =
      some [{ title := "题目1：".toList, stem := "中国共产党成立于哪一年？".toList,
              options := ["A. 1920".toList, "B. 1921".toList, "C. 1922".toList],
              answer := "B".toList, explanation := "中共一大于1921年召开。".toList }] :=
  ⟨by decide,
    (roundtrip_wellFormedBlock "题目1：".toList "中国共产党成立于哪一年？".toList
      [('A', '.', "1920".toList), ('B', '.', "1921".toList), ('C', '.', "1922".toList)]
      "B".toList "中共一大于1921年召开。".toList (by decide) (by decide) (by decide) (by decide)
      (by decide) (by decide)).trans (by decide)⟩

/-- C4: in every returned list, the options of each question are exactly the
option lines of that question's own chunk, in input order, each rewritten as
the half-width letter, a dot, a blank and the text of the line behind the
letter, the separator and the white space around it; the half-width letter of
a full-width one is its code point less 65248. -/
theorem tryParseQuiz_options (text : Str) (qs : List Question)
    (h : tryParseQuiz text = some qs) :
    List.Forall₂
      (fun (ch : List Str) (q : Question) =>
        q.options = (ch.filter fun l => (optionMatch l).isSome).map formatOption)
      (chunks (lines text)) qs ∧
    (∀ l m, optionMatch l = some m →
      ∃ c ws1 d ws2, l = c :: (ws1 ++ d :: (ws2 ++ m)) ∧ isOptionLetter c = true ∧
        (∀ x ∈ ws1, isWhiteSpace x = true) ∧ isOptionSep d = true ∧
        (∀ x ∈ ws2, isWhiteSpace x = true) ∧ skipWS m = m ∧
        formatOption l = halfWidth c :: '.' :: ' ' :: m) ∧
    (∀ c, isOptionLetter c = true →
      halfWidth c = if isFullWidthLetter c then Char.ofNat (c.toNat - 65248) else c) := by
  refine ⟨?_, fun l m hm => optionMatch_shape hm, ?_⟩
  · refine List.Forall₂.imp ?_ (questions_of_chunks h)
    intro ch q hq
    obtain ⟨l0, r, -, -, ho, -⟩ := extractFields_eq_some hq
    rw [ho, scanLines_options true 0 ch _ (by simp)]
    rfl
  · intro c hc
    rcases optionLetter_cases hc with rfl | rfl | rfl | rfl | rfl | rfl | rfl | rfl <;> rfl

/-- C4, at two blocks that follow each other: each question keeps the options
of its own block. -/
theorem tryParseQuiz_options_witness :
    tryParseQuiz "题目1\nA.甲\nＢ ． 乙\n题目2\nC、丙".toList =
      some [{ title := "题目1".toList, stem := [], options := ["A. 甲".toList, "B. 乙".toList],
              answer := [], explanation := [] },
            { title := "题目2".toList, stem := [], options := ["C. 丙".toList],
              answer := [], explanation := [] }] ∧
    List.Forall₂
      (fun (ch : List Str) (q : Question) =>
        q.options = (ch.filter fun l => (optionMatch l).isSome).map formatOption)
      (chunks (lines "题目1\nA.甲\nＢ ． 乙\n题目2\nC、丙".toList))
      [{ title := "题目1".toList, stem := [], options := ["A. 甲".toList, "B. 乙".toList],
         answer := [], explanation := [] },
       { title := "题目2".toList, stem := [], options := ["C. 丙".toList],
         answer := [], explanation := [] }] :=
  ⟨by decide, (tryParseQuiz_options "题目1\nA.甲\nＢ ． 乙\n题目2\nC、丙".toList
    [{ title := "题目1".toList, stem := [], options := ["A. 甲".toList, "B. 乙".toList],
       answer := [], explanation := [] },
     { title := "题目2".toList, stem := [], options := ["C. 丙".toList],
       answer := [], explanation := [] }] (by decide)).1⟩

/-- C5: in a chunk with exactly one explanation line, the explanation of the
question is the captured rest of that line followed by the longest run of
lines right behind it that match none of the stem, option, answer and title
patterns, joined with line breaks. -/
theorem explanation_absorbs_run (text : Str) (qs : List Question)
    (h : tryParseQuiz text = some qs) :
    List.Forall₂
      (fun (ch : List Str) (q : Question) =>
        ∀ pre L post m, ch = pre ++ L :: post → explainMatch L = some m →
        (∀ l ∈ pre, explainMatch l = none) → (∀ l ∈ post, explainMatch l = none) →
        q.explanation = joinLines (m :: post.takeWhile fun x => !isMarker x))
      (chunks (lines text)) qs := by
  refine List.Forall₂.imp ?_ (questions_of_chunks h)
  intro ch q hq pre L post m hch hL hpre hpost
  obtain ⟨l0, r, -, -, -, he, -⟩ := extractFields_eq_some hq
  rw [he, hch]
  obtain ⟨f2, q2, h2⟩ := scanLines_append_of_no_explain true pre (L :: post) _ hpre
  rw [h2, scanLines_at_explain f2 L m post q2 hL, scanLines_explanation_none _ _ _ _ hpost]

/-- C5, at an explanation that spans three lines and is followed by an option
line: the three lines are joined by line breaks, the option line stops the
run. -/
theorem explanation_absorbs_run_witness :
    tryParseQuiz "题目1\n题干：甲\n解析：一\n二\n三\nA.乙".toList =
      some [{ title := "题目1".toList, stem := "甲".toList, options := ["A. 乙".toList],
              answer := [], explanation := "一\n二\n三".toList }] ∧
    List.Forall₂
      (fun (ch : List Str) (q : Question) =>
        ∀ pre L post m, ch = pre ++ L :: post → explainMatch L = some m →
        (∀ l ∈ pre, explainMatch l = none) → (∀ l ∈ post, explainMatch l = none) →
        q.explanation = joinLines (m :: post.takeWhile fun x => !isMarker x))
      (chunks (lines "题目1\n题干：甲\n解析：一\n二\n三\nA.乙".toList))
      [{ title := "题目1".toList, stem := "甲".toList, options := ["A. 乙".toList],
         answer := [], explanation := "一\n二\n三".toList }] :=
  ⟨by decide, explanation_absorbs_run "题目1\n题干：甲\n解析：一\n二\n三\nA.乙".toList
    [{ title := "题目1".toList, stem := "甲".toList, options := ["A. 乙".toList],
       answer := [], explanation := "一\n二\n三".toList }] (by decide)⟩

/-- C6, the code at the failing input: the answer line `答案：B` is not
recognised, the answer stays empty, while `正确答案：B`, `参考答案：B` and even
`正答案：B` give the answer `B`. -/
theorem answer_label_short_not_matched :
    answerMatch "答案：B".toList = none ∧
    tryParseQuiz "题目1\n题干：甲\n答案：B".toList =
      some [{ title := "题目1".toList, stem := "甲".toList, options := [],
              answer := [], explanation := [] }] ∧
    tryParseQuiz "题目1\n题干：甲\n正确答案：B".toList =
      some [{ title := "题目1".toList, stem := "甲".toList, options := [],
              answer := "B".toList, explanation := [] }] ∧
    tryParseQuiz "题目1\n题干：甲\n参考答案：B".toList =
      some [{ title := "题目1".toList, stem := "甲".toList, options := [],
              answer := "B".toList, explanation := [] }] ∧
    answerMatch "正答案：B".toList = some "B".toList := by
  decide

/-- C7, as stated, fails: a line in front of the first title line belongs to
no range, so the chunks do not add up to the line list. -/
theorem ranges_cover_counterexample :
    (tryParseQuiz "前言\n题目1\n题干：甲".toList).isSome = true ∧
    lines "前言\n题目1\n题干：甲".toList = ["前言".toList, "题目1".toList, "题干：甲".toList] ∧
    ranges (lines "前言\n题目1\n题干：甲".toList) = [(1, 3)] ∧
    (chunks (lines "前言\n题目1\n题干：甲".toList)).flatten ≠
      lines "前言\n题目1\n题干：甲".toList := by
  decide

/-- C7, amended: the ranges from which the questions are built follow each
other without gap or overlap, each is non-empty and inside the line list, and
together they cover the lines from the first title line on, which are all the
lines when no line matches the title pattern; the lines in front of the first
title line belong to no range. -/
theorem ranges_cover_from_first_title (text : Str) (qs : List Question)
    (h : tryParseQuiz text = some qs) :
    List.Chain' (fun r1 r2 : Nat × Nat => r1.2 = r2.1) (ranges (lines text)) ∧
    List.Pairwise (fun r1 r2 : Nat × Nat => r1.2 ≤ r2.1) (ranges (lines text)) ∧
    (∀ r ∈ ranges (lines text), r.1 < r.2 ∧ r.2 ≤ (lines text).length) ∧
    (chunks (lines text)).flatten =
      (if (lines text).any titleTest then (lines text).dropWhile (fun l => !titleTest l)
       else lines text) ∧
    List.Forall₂ (fun ch q => extractFields ch = some q) (chunks (lines text)) qs := by
  obtain ⟨-, hne, -⟩ := tryParseQuiz_eq_some.mp h
  exact ⟨zip_tail_chain _, zip_tail_pairwise _ (indices_sorted hne), ranges_bounds hne,
    chunks_flatten hne, questions_of_chunks h⟩

/-- C7 amended, at a text with a line in front of two titled blocks. -/
theorem ranges_cover_from_first_title_witness :
    (chunks (lines "前言\n题目1\n题干：甲\n题目2\nA.乙".toList)).flatten =
      ["题目1".toList, "题干：甲".toList, "题目2".toList, "A.乙".toList] ∧
    ranges (lines "前言\n题目1\n题干：甲\n题目2\nA.乙".toList) = [(1, 3), (3, 5)] :=
  ⟨((ranges_cover_from_first_title "前言\n题目1\n题干：甲\n题目2\nA.乙".toList
      [{ title := "题目1".toList, stem := "甲".toList, options := [], answer := [],
         explanation := [] },
       { title := "题目2".toList, stem := [], options := ["A. 乙".toList], answer := [],
         explanation := [] }] (by decide)).2.2.2.1).trans (by decide), by decide⟩

/-- C8, as stated, fails: in a range without title line the first line is
taken as the title and is no candidate for the stem. -/
theorem stem_fallback_counterexample :
    tryParseQuiz "中国共产党成立于哪一年？\nA.1920\n正确答案：B".toList =
      some [{ title := "中国共产党成立于哪一年？".toList, stem := [],
              options := ["A. 1920".toList], answer := "B".toList, explanation := [] }] ∧
    chunks (lines "中国共产党成立于哪一年？\nA.1920\n正确答案：B".toList) =
      [["中国共产党成立于哪一年？".toList, "A.1920".toList, "正确答案：B".toList]] ∧
    (∀ l ∈ ["中国共产党成立于哪一年？".toList, "A.1920".toList, "正确答案：B".toList],
      stemMatch l = none) ∧
    claimedStem ["中国共产党成立于哪一年？".toList, "A.1920".toList, "正确答案：B".toList] =
      "中国共产党成立于哪一年？".toList ∧
    claimedStem ["中国共产党成立于哪一年？".toList, "A.1920".toList, "正确答案：B".toList] ≠
      ([] : Str) := by
  decide

/-- C8, amended: when no line of a chunk matches the stem pattern, the stem
is the first line behind the chunk's first line (which is the title, whether
or not it matches the title pattern) that matches none of the option, answer
and explanation patterns, and is empty when there is no such line. -/
theorem stem_fallback_skips_first_line (text : Str) (qs : List Question)
    (h : tryParseQuiz text = some qs) :
    List.Forall₂
      (fun (ch : List Str) (q : Question) => (∀ l ∈ ch, stemMatch l = none) →
        q.title = removeWS (ch.headD []) ∧
        q.stem = (ch.tail.find? fun l =>
          !(optionMatch l).isSome && !(answerMatch l).isSome &&
            !(explainMatch l).isSome).getD [])
      (chunks (lines text)) qs := by
  refine List.Forall₂.imp ?_ (questions_of_chunks h)
  intro ch q hq hno
  obtain ⟨l0, r, hch, ht, -, -, -, hs, -⟩ := extractFields_eq_some hq
  refine ⟨by rw [ht, hch]; rfl, ?_⟩
  rw [hs (by rw [scanLines_stem_none _ _ _ _ hno])]
  rfl

/-- C8 amended, at a range without title line: the first line is the title,
the stem is the first unmarked line behind it. -/
theorem stem_fallback_skips_first_line_witness :
    tryParseQuiz "哪一年？\nA.1920\n一九二一年\n解析：略".toList =
      some [{ title := "哪一年？".toList, stem := "一九二一年".toList,
              options := ["A. 1920".toList], answer := [], explanation := "略".toList }] ∧
    List.Forall₂
      (fun (ch : List Str) (q : Question) => (∀ l ∈ ch, stemMatch l = none) →
        q.title = removeWS (ch.headD []) ∧
        q.stem = (ch.tail.find? fun l =>
          !(optionMatch l).isSome && !(answerMatch l).isSome &&
            !(explainMatch l).isSome).getD [])
      (chunks (lines "哪一年？\nA.1920\n一九二一年\n解析：略".toList))
      [{ title := "哪一年？".toList, stem := "一九二一年".toList,
         options := ["A. 1920".toList], answer := [], explanation := "略".toList }] :=
  ⟨by decide, stem_fallback_skips_first_line "哪一年？\nA.1920\n一九二一年\n解析：略".toList
    [{ title := "哪一年？".toList, stem := "一九二一年".toList,
       options := ["A. 1920".toList], answer := [], explanation := "略".toList }] (by decide)⟩

/-- C9: every question returned by `tryParseQuiz` has a non-empty title, so
the card header is the title and never the synthesised `题目n`; a range made
of a title line only gives a question whose other fields are all empty. -/
theorem title_nonempty (text : Str) (qs : List Question) (h : tryParseQuiz text = some qs) :
    (∀ q ∈ qs, q.title ≠ [] ∧ ∀ idx, headerText q idx = q.title) ∧
    (∀ t, titleTest t = true →
      extractFields [t] = some { title := removeWS t, stem := [], options := [],
                                 answer := [], explanation := [] }) := by
  constructor
  · intro q hq
    have hf := questions_of_chunks h
    have hne : q.title ≠ [] := by
      obtain ⟨ch, hch, hq2⟩ := forall₂_mem_right hf hq
      obtain ⟨l0, r, hc, ht, -⟩ := extractFields_eq_some hq2
      have hl0 : l0 ∈ lines text := mem_of_mem_chunks hch l0 (by rw [hc]; simp)
      obtain ⟨c, r2, hl, hws⟩ := lines_head hl0
      rw [ht]
      exact removeWS_ne_nil hl hws
    exact ⟨hne, fun idx => by simp [headerText, hne]⟩
  · intro t ht
    simp [extractFields, scanLines, ht, stemFallback]

/-- C9, at a text without title line and at the range `题目 3：`. -/
theorem title_nonempty_witness :
    (∀ q ∈ [({ title := "甲".toList, stem := [], options := [], answer := "B".toList,
               explanation := [] } : Question)],
      q.title ≠ [] ∧ ∀ idx, headerText q idx = q.title) ∧
    extractFields ["题目 3：".toList] =
      some { title := "题目3：".toList, stem := [], options := [], answer := [],
             explanation := [] } :=
  ⟨(title_nonempty "甲\n正确答案：B".toList
      [{ title := "甲".toList, stem := [], options := [], answer := "B".toList,
         explanation := [] }] (by decide)).1,
    ((title_nonempty "甲\n正确答案：B".toList
      [{ title := "甲".toList, stem := [], options := [], answer := "B".toList,
         explanation := [] }] (by decide)).2 "题目 3：".toList (by decide)).trans (by decide)⟩

/-- C10: `escapeHTML` is the character-by-character rewriting that sends the
ampersand, the angle brackets, the double quote and the apostrophe to their
entities and leaves every other character alone; the result holds no raw
angle bracket, double quote or apostrophe, and every ampersand in it starts
one of the five entities. -/
theorem escapeHTML_charwise (s : Str) :
    escapeHTML s = s.flatMap escapeChar ∧
    (∀ c ∈ escapeHTML s, c ≠ '<' ∧ c ≠ '>' ∧ c ≠ Char.ofNat 34 ∧ c ≠ Char.ofNat 39) ∧
    (∀ pre post, escapeHTML s = pre ++ '&' :: post →
      ∃ ent ∈ entities, ∃ rest, '&' :: post = ent ++ rest) := by
  refine ⟨?_, ?_, ?_⟩
  · induction s with
    | nil => rfl
    | cons x xs ih => rw [escapeHTML_cons, ih, List.flatMap_cons]
  · induction s with
    | nil => simp [escapeHTML_nil]
    | cons x xs ih =>
      intro c hc
      rw [escapeHTML_cons] at hc
      rcases List.mem_append.mp hc with h | h
      · rcases escapeChar_cases x with he | ⟨he, -, h2, h3, h4, h5⟩
        · exact (entity_chars he).1 c h
        · rw [he, List.mem_singleton] at h
          subst h
          exact ⟨h2, h3, h4, h5⟩
      · exact ih c h
  · induction s with
    | nil =>
      intro pre post h
      rw [escapeHTML_nil] at h
      exact absurd h (by simp)
    | cons x xs ih =>
      intro pre post h
      rw [escapeHTML_cons] at h
      rcases List.append_eq_append_iff.mp h with ⟨a2, h1, h2⟩ | ⟨c2, h1, h2⟩
      · exact ih a2 post h2
      · cases c2 with
        | nil =>
          simp only [List.nil_append] at h2
          exact ih [] post h2.symm
        | cons y c3 =>
          simp only [List.cons_append, List.cons.injEq] at h2
          obtain ⟨rfl, h3⟩ := h2
          rcases escapeChar_cases x with he | ⟨he, hx, -⟩
          · obtain ⟨-, t, ht, hnt⟩ := entity_chars he
            have hpre : pre = [] := by
              cases pre with
              | nil => rfl
              | cons p ps =>
                rw [ht] at h1
                simp only [List.cons_append, List.cons.injEq] at h1
                exact absurd (by rw [h1.2]; simp) hnt
            subst hpre
            simp only [List.nil_append] at h1
            exact ⟨escapeChar x, he, escapeHTML xs, by rw [h1, h3]; simp⟩
          · rw [he] at h1
            cases pre with
            | nil =>
              simp only [List.nil_append, List.cons.injEq] at h1
              exact absurd h1.1 hx
            | cons p ps =>
              simp only [List.cons_append, List.cons.injEq] at h1
              exact absurd h1.2 (by simp)

/-- C10, at a text with the five special characters, one of them inside an
entity-like word: the ampersand of `&lt;` in the input is escaped once, and
the ampersand so produced starts the entity `&amp;`. -/
theorem escapeHTML_charwise_witness :
    escapeHTML ("a<b>&lt;".toList ++ [Char.ofNat 34, Char.ofNat 39]) =
      "a&lt;b&gt;&amp;lt;&quot;&#039;".toList ∧
    ∃ ent ∈ entities, ∃ rest, '&' :: "amp;lt;&quot;&#039;".toList = ent ++ rest :=
  ⟨(escapeHTML_charwise ("a<b>&lt;".toList ++ [Char.ofNat 34, Char.ofNat 39])).1.trans
      (by decide),
    (escapeHTML_charwise ("a<b>&lt;".toList ++ [Char.ofNat 34, Char.ofNat 39])).2.2
      "a&lt;b&gt;".toList "amp;lt;&quot;&#039;".toList (by decide)⟩

/-- C11: `renderQuizCards` builds one card per question of `tryParseQuiz`, the
card at index `idx` being that of the question at index `idx`.  When the
answer or the explanation of a question is non-empty, its card has a button
and a detail region, the region hidden and the label `显示解析` at first, the
first click shows the region and sets the label `隐藏解析`, and after any
number `n` of clicks the region is hidden exactly when `n` is even, the label
being `显示解析` exactly when it is hidden and `隐藏解析` exactly when it is
shown; when both are empty the card has no button and no detail region. -/
theorem toggle_alternates (text : Str) (qs : List Question)
    (h : tryParseQuiz text = some qs) :
    (renderQuizCards qs).length = qs.length ∧
    ∀ idx q, qs[idx]? = some q →
      ∃ card, (renderQuizCards qs)[idx]? = some card ∧ card = renderCard q idx ∧
        ((q.answer ≠ [] ∨ q.explanation ≠ []) →
          ∃ t, card.toggle = some t ∧ isHidden t = true ∧ t.label = showLabel ∧
            isHidden (afterClicks 1 t) = false ∧ (afterClicks 1 t).label = hideLabel ∧
            ∀ n, (isHidden (afterClicks n t) = true ↔ n % 2 = 0) ∧
              ((afterClicks n t).label = showLabel ↔ isHidden (afterClicks n t) = true) ∧
              ((afterClicks n t).label = hideLabel ↔ isHidden (afterClicks n t) = false)) ∧
        ((q.answer = [] ∧ q.explanation = []) → card.toggle = none) := by
  have hget : ∀ idx q, qs[idx]? = some q →
      (renderQuizCards qs)[idx]? = some (renderCard q idx) := by
    intro idx q hq
    unfold renderQuizCards
    rw [List.getElem?_map, List.getElem?_enum, hq]
    rfl
  refine ⟨by simp [renderQuizCards, List.enum_length], ?_⟩
  intro idx q hidx
  have hq : q ∈ qs := List.getElem?_mem hidx
  obtain ⟨hsa, hse⟩ := parsed_question_solid h hq
  refine ⟨renderCard q idx, hget idx q hidx, rfl, ?_, ?_⟩
  · intro hne
    have hcond : (hasText q.answer || hasText q.explanation) = true := by
      rw [Bool.or_eq_true, hasText_iff_of_solid hsa, hasText_iff_of_solid hse]
      exact hne
    refine ⟨{ label := showLabel, detailClasses := ["quiz-detail".toList, hiddenClass],
              answerValue :=
                if hasText q.answer = true then some (escapeHTML q.answer) else none,
              explainValue :=
                if hasText q.explanation = true then
                  some (replaceAll '\n' "<br>".toList (escapeHTML q.explanation))
                else none },
      by simp only [renderCard, hcond, if_true], rfl, rfl, ?_, ?_, ?_⟩
    · rw [afterClicks_fresh]
      rfl
    · rw [afterClicks_fresh]
      rfl
    · intro n
      exact afterClicks_fresh_facts _ _ n
  · rintro ⟨ha, he⟩
    simp [renderCard, ha, he, hasText, trim]

/-- C11, at a block with answer and explanation followed by a block without:
the first question gets the card with the hidden detail region, the second
the card without button. -/
theorem toggle_alternates_witness :
    (renderQuizCards
      [{ title := "题目1：".toList, stem := "甲".toList, options := ["A. 乙".toList], answer := "A".toList, explanation := "丙".toList },
       { title := "题目2".toList, stem := "丁".toList, options := [], answer := [], explanation := [] }]).map (fun c => c.toggle) =
      [some { label := showLabel, detailClasses := ["quiz-detail".toList, hiddenClass],
              answerValue := some "A".toList, explainValue := some "丙".toList }, none] ∧
    (renderQuizCards
      [{ title := "题目1：".toList, stem := "甲".toList, options := ["A. 乙".toList], answer := "A".toList, explanation := "丙".toList },
       { title := "题目2".toList, stem := "丁".toList, options := [], answer := [], explanation := [] }]).length = 2 ∧
    ∀ idx q,
      ([{ title := "题目1：".toList, stem := "甲".toList, options := ["A. 乙".toList], answer := "A".toList, explanation := "丙".toList },
       { title := "题目2".toList, stem := "丁".toList, options := [], answer := [], explanation := [] }] : List Question)[idx]? = some q →
      ∃ card, (renderQuizCards
        [{ title := "题目1：".toList, stem := "甲".toList, options := ["A. 乙".toList], answer := "A".toList, explanation := "丙".toList },
       { title := "题目2".toList, stem := "丁".toList, options := [], answer := [], explanation := [] }])[idx]? = some card ∧ card = renderCard q idx ∧
        ((q.answer ≠ [] ∨ q.explanation ≠ []) →
          ∃ t, card.toggle = some t ∧ isHidden t = true ∧ t.label = showLabel ∧
            isHidden (afterClicks 1 t) = false ∧ (afterClicks 1 t).label = hideLabel ∧
            ∀ n, (isHidden (afterClicks n t) = true ↔ n % 2 = 0) ∧
              ((afterClicks n t).label = showLabel ↔ isHidden (afterClicks n t) = true) ∧
              ((afterClicks n t).label = hideLabel ↔ isHidden (afterClicks n t) = false)) ∧
        ((q.answer = [] ∧ q.explanation = []) → card.toggle = none) :=
  ⟨by decide,
    toggle_alternates "题目1：\n题干：甲\nA.乙\n正确答案：A\n解析：丙\n题目2\n题干：丁".toList
      [{ title := "题目1：".toList, stem := "甲".toList, options := ["A. 乙".toList], answer := "A".toList, explanation := "丙".toList },
       { title := "题目2".toList, stem := "丁".toList, options := [], answer := [], explanation := [] }] (by decide)⟩

/-- C12, the code at the failing input: the user sends `甲` with a click,
types `乙` while the request is pending and presses Enter; the keypress
listener calls `sendMessage` although the button is disabled, and two
requests are pending at once.  When the first one settles the button is
enabled again while the second is still pending. -/
theorem enter_starts_second_request :
    run initialWidget [Event.typeText "甲".toList, Event.clickSend] =
      { inputValue := [], selectedImage := none, sendDisabled := true, inFlight := 1 } ∧
    run initialWidget [Event.typeText "甲".toList, Event.clickSend,
        Event.typeText "乙".toList, Event.clickSend] =
      { inputValue := "乙".toList, selectedImage := none, sendDisabled := true,
        inFlight := 1 } ∧
    run initialWidget [Event.typeText "甲".toList, Event.clickSend,
        Event.typeText "乙".toList, Event.pressEnter] =
      { inputValue := [], selectedImage := none, sendDisabled := true, inFlight := 2 } ∧
    run initialWidget [Event.typeText "甲".toList, Event.clickSend,
        Event.typeText "乙".toList, Event.pressEnter, Event.settle] =
      { inputValue := [], selectedImage := none, sendDisabled := false, inFlight := 1 } := by
  decide

/-- C13: `tryParseQuiz` gives `null` or a list with at least one question,
each built from a non-empty chunk; when the indicator test passes there is at
least one line and no chunk is empty, so neither guard fires; for a bot
message `appendMessage` takes the markdown path exactly when there is no
mermaid block and `tryParseQuiz` gives `null`, so only when it gives `null`;
and the index-level scan loop ends within `chunk.length` iterations
with the result of the scan, the inner loop never moving the index back. -/
theorem tryParseQuiz_total_nonempty (text : Str) :
    (tryParseQuiz text = none ∨
      ∃ qs, tryParseQuiz text = some qs ∧ qs ≠ [] ∧
        List.Forall₂ (fun (ch : List Str) (q : Question) => ch ≠ [] ∧ extractFields ch = some q)
          (chunks (lines text)) qs) ∧
    (indicatorTest text = true →
      lines text ≠ [] ∧ ∀ ch ∈ chunks (lines text), ch ≠ []) ∧
    ((appendMessage text MessageType.bot none).body = Rendering.markdown text ↔
      findMermaid text = none ∧ tryParseQuiz text = none) ∧
    (∀ chunk q, scanLoop chunk chunk.length 0 q = some (scanLines true 0 chunk q)) ∧
    (∀ rest i parts, i ≤ (absorbLoop rest (i + 1) i parts).2) := by
  have hcase : tryParseQuiz text = none ∨
      ∃ qs, tryParseQuiz text = some qs ∧ qs ≠ [] ∧
        List.Forall₂ (fun (ch : List Str) (q : Question) => ch ≠ [] ∧ extractFields ch = some q)
          (chunks (lines text)) qs := by
    by_cases hi : HasIndicator text
    · right
      obtain ⟨h1, h2⟩ := tryParseQuiz_of_indicator hi
      obtain ⟨-, hne, -⟩ := tryParseQuiz_eq_some.mp h1
      refine ⟨_, h1, h2, ?_⟩
      have hf := filterMap_forall₂ (f := extractFields) (chunks (lines text))
        fun c hc => extractFields_ne_none (chunks_ne_nil hne c hc)
      rw [List.forall₂_iff_zip] at hf ⊢
      refine ⟨hf.1, ?_⟩
      intro a b hab
      exact ⟨chunks_ne_nil hne a (List.of_mem_zip hab).1, hf.2 hab⟩
    · exact Or.inl (tryParseQuiz_eq_none hi)
  refine ⟨hcase, ?_, ?_, ?_, ?_⟩
  · intro hi
    obtain ⟨x, hx, hws⟩ := hasIndicator_not_ws ((indicatorTest_iff_hasIndicator text).mp hi)
    have hne := lines_ne_nil hx hws
    exact ⟨hne, chunks_ne_nil hne⟩
  · constructor
    · intro hm
      cases hf : findMermaid text with
      | some m =>
        rw [appendMessage_bot_of_mermaid none hf] at hm
        exact absurd hm (by simp)
      | none =>
        rcases hcase with h0 | ⟨qs, h1, h2, -⟩
        · exact ⟨rfl, h0⟩
        · rw [appendMessage_bot_of_list none hf h1 h2] at hm
          exact absurd hm (by simp)
    · rintro ⟨hf, h0⟩
      exact appendMessage_bot_of_null none hf h0
  · intro chunk q
    have := scanLoop_eq chunk chunk.length 0 q (by omega)
    simpa using this
  · intro rest i parts
    rw [absorbLoop_eq]
    simp only
    split <;> omega

/-- C13, at a text with an explanation of three lines: the index-level loop
gives the scan within four iterations, and the indicator test makes the line
list and every chunk non-empty. -/
theorem tryParseQuiz_total_nonempty_witness :
    indicatorTest "题目1\n解析：一\n二\n三".toList = true ∧
    (lines "题目1\n解析：一\n二\n三".toList ≠ [] ∧
      ∀ ch ∈ chunks (lines "题目1\n解析：一\n二\n三".toList), ch ≠ []) ∧
    scanLoop (lines "题目1\n解析：一\n二\n三".toList) 4 0
        { title := "题目1".toList, stem := [], options := [], answer := [],
          explanation := [] } =
      some { title := "题目1".toList, stem := [], options := [], answer := [],
             explanation := "一\n二\n三".toList } :=
  ⟨by decide,
    (tryParseQuiz_total_nonempty "题目1\n解析：一\n二\n三".toList).2.1 (by decide),
    ((tryParseQuiz_total_nonempty "题目1\n解析：一\n二\n三".toList).2.2.2.1
      ["题目1".toList, "解析：一".toList, "二".toList, "三".toList]
      { title := "题目1".toList, stem := [], options := [], answer := [],
        explanation := [] }).trans (by decide)⟩

end QuizParser
